import Mathlib

/-!
Verification development for the `hierarchy` Pelican plugin
(`hierarchy/hierarchy.py`).

The plugin builds a hierarchical organization of pages from the content
directory tree.  We shallowly embed the algorithmic core:

* the `FILENAME_METADATA` regex (`(?P<order>[0-9]*(_|-| ))?` followed by
  `(?P<title>((?!-(en|de)).)+)` and an optional `(-(?P<lang>(en|de)))?`),
  matched by `re.match`, including the backtracking behaviour of the
  optional order group;
* Pelican's `utils.slugify` on ASCII input (keep word chars, whitespace
  and hyphens, strip, lowercase, collapse runs of hyphens/whitespace);
* `HiPage` objects as arena nodes (`parent` back-references are arena
  indices, `sub_pages` is an insertion-ordered association list, matching
  the `OrderedDict` used by the source);
* `HiPagesGenerator._scan_dir_r` and `generate_context` (scan, conflict
  resolution between virtual/real/translated pages, status dispatch, the
  translation back-fill loop);
* the `ascii_tree` diagnostic printer;
* the `hierarchy` ancestor walk, `level`, `breadcrumps` and the
  `hierarchy` entry of `url_format`.

The external collaborators (Pelican's reader, validity check, settings)
are inputs: each scanned file carries the reader outcome (`readOk`),
the validity verdict (`valid`), its metadata `status` and language.
-/

namespace Hierarchy

/-! ## Characters and strings -/

/-- Separator characters accepted after the digit run by the `order`
group of `FILENAME_METADATA`: `(_|-| )`. -/
def isSepChar (c : Char) : Bool :=
  c = '_' || c = '-' || c = ' '

/-- Python `\s` on ASCII input (as used by `utils.slugify`). -/
def isSpaceChar (c : Char) : Bool :=
  c = ' ' || c = '\t' || c = '\n' || c = '\r'

/-- Python `\w` on ASCII input: alphanumeric or underscore. -/
def isWordChar (c : Char) : Bool :=
  c.isAlphanum || c = '_'

/-- Lexicographic Bool-valued comparison of char lists (Python string `<`
restricted to the code-point order, which `Char.lt` also uses). -/
def charsLt : List Char → List Char → Bool
  | [], [] => false
  | [], _ :: _ => true
  | _ :: _, [] => false
  | c :: cs, d :: ds => if c < d then true else if d < c then false else charsLt cs ds

/-- Python string `<` used by `sorted(os.listdir(path))`. -/
def strLt (s t : String) : Bool :=
  charsLt s.toList t.toList

/-! ## The FILENAME_METADATA regex

`FILENAME_METADATA = r'(?P<order>[0-9]*(_|-| ))?(?P<title>((?!-(en|de)).)+)(-(?P<lang>(en|de)))?'`
applied with `re.match` by `pelican.readers.parse_path_metadata` to the
extension-stripped base name. -/

/-- The `order` group: a (possibly empty) run of digits followed by a
mandatory separator.  `none` when the group does not match at the start
of the input.  Backtracking inside the digit run cannot produce another
match because a digit is never a separator. -/
def matchOrder (cs : List Char) : Option (List Char × List Char) :=
  let ds := cs.takeWhile Char.isDigit
  match cs.dropWhile Char.isDigit with
  | c :: rest => if isSepChar c then some (ds ++ [c], rest) else none
  | [] => none

/-- Does the input start with `-en` or `-de` (the lookahead `-(en|de)`)? -/
def langHere (cs : List Char) : Option String :=
  if cs.take 3 = ['-', 'e', 'n'] then some "en"
  else if cs.take 3 = ['-', 'd', 'e'] then some "de"
  else none

/-- The greedy `title` group `((?!-(en|de)).)+`: consume characters while
the current position does not begin a `-en`/`-de` suffix.  Returns the
consumed run and the remainder. -/
def titleRun : List Char → List Char × List Char
  | [] => ([], [])
  | c :: rest =>
    if (langHere (c :: rest)).isSome then ([], c :: rest)
    else
      let (t, r) := titleRun rest
      (c :: t, r)

/-- The named groups produced by matching `FILENAME_METADATA`; a group
that did not participate in the match is `none` (such groups are dropped
by `parse_path_metadata`). -/
structure PathMeta where
  order : Option String
  title : Option String
  lang : Option String
deriving Repr, DecidableEq

/-- `re.match(FILENAME_METADATA, base)`.  The optional order group is
tried first; if the mandatory one-or-more `title` group is then empty
(end of input or an immediate `-en`/`-de`), the regex engine backtracks
and retries with the order group skipped. -/
def matchFilenameMetadata (base : String) : PathMeta :=
  let cs := base.toList
  match matchOrder cs with
  | some (o, rest) =>
    let (t, r) := titleRun rest
    if t.isEmpty then
      let (t2, r2) := titleRun cs
      if t2.isEmpty then ⟨none, none, none⟩
      else ⟨none, some (String.mk t2), langHere r2⟩
    else ⟨some (String.mk o), some (String.mk t), langHere r⟩
  | none =>
    let (t, r) := titleRun cs
    if t.isEmpty then ⟨none, none, none⟩
    else ⟨none, some (String.mk t), langHere r⟩

/-! ## Pelican `utils.slugify` (ASCII fragment)

`value = re.sub(r'[^\w\s-]', '', value).strip().lower()`
`return re.sub(r'[-\s]+', '-', value)` -/

/-- Collapse every maximal run of hyphens/whitespace into a single
hyphen.  The Boolean records whether the previous kept character was
part of such a run. -/
def collapseRuns : List Char → Bool → List Char
  | [], _ => []
  | c :: rest, prev =>
    if isSpaceChar c || c = '-' then
      if prev then collapseRuns rest true
      else '-' :: collapseRuns rest true
    else c :: collapseRuns rest false

/-- Strip leading and trailing whitespace (Python `str.strip`). -/
def stripChars (cs : List Char) : List Char :=
  ((cs.dropWhile isSpaceChar).reverse.dropWhile isSpaceChar).reverse

/-- `pelican.utils.slugify` on ASCII strings: drop characters outside
`[\w\s-]`, strip, lowercase, collapse `[-\s]+` runs to `-`. -/
def slugify (s : String) : String :=
  let kept := s.toList.filter (fun c => isWordChar c || isSpaceChar c || c = '-')
  String.mk (collapseRuns ((stripChars kept).map Char.toLower) false)

/-- `os.path.splitext(basename)[0]`: the name up to the last dot, except
that a name whose only dot is the leading one keeps the dot (hidden
files). -/
def splitExtBase (s : String) : String :=
  let cs := s.toList
  let extRev := cs.reverse.takeWhile (· ≠ '.')
  if extRev.length = cs.length then s
  else
    let base := (cs.reverse.drop (extRev.length + 1)).reverse
    if base.isEmpty then s else String.mk base

/-! ## HiPage nodes

`HiPage` objects hold mutable `parent` back-references and an
`OrderedDict` of sub-pages, so we store them in an arena: a node is an
index into a `List Node`, `parent` is an optional index, and `sub_pages`
is an insertion-ordered association list from `name` keys to indices. -/

structure Node where
  name : String
  title : String
  order : String
  virtual : Bool
  lang : String
  inDefaultLang : Bool
  status : String
  parent : Option Nat
  subPages : List (String × Nat)
deriving Repr, DecidableEq

def defNode : Node :=
  { name := "", title := "", order := "", virtual := false, lang := "",
    inDefaultLang := false, status := "", parent := none, subPages := [] }

def getNode (a : List Node) (i : Nat) : Node :=
  a.getD i defNode

def modNode (a : List Node) (i : Nat) (f : Node → Node) : List Node :=
  a.set i (f (getNode a i))

/-! ### OrderedDict operations on the `sub_pages` association list -/

/-- `d[k]` lookup (first matching key; keys are unique by construction). -/
def odLookup (d : List (String × Nat)) (k : String) : Option Nat :=
  match d with
  | [] => none
  | (k', v) :: rest => if k' = k then some v else odLookup rest k

/-- `d[k] = v`: overwrite in place if the key exists (an `OrderedDict`
keeps the original position), append otherwise. -/
def odSet (d : List (String × Nat)) (k : String) (v : Nat) : List (String × Nat) :=
  match d with
  | [] => [(k, v)]
  | (k', v') :: rest => if k' = k then (k, v) :: rest else (k', v') :: odSet rest k v

/-- `del d[k]` (no-op when the key is absent; the source only deletes
present keys). -/
def odDel (d : List (String × Nat)) (k : String) : List (String × Nat) :=
  match d with
  | [] => []
  | (k', v') :: rest => if k' = k then rest else (k', v') :: odDel rest k

/-- `d.update(src)`: assign every entry of `src` into `d` in order. -/
def odUpdate (d src : List (String × Nat)) : List (String × Nat) :=
  src.foldl (fun acc kv => odSet acc kv.1 kv.2) d

/-- Python `list.remove(x)`: drop the first occurrence.  (CPython raises
`ValueError` when `x` is absent; in `_scan_dir_r` the removed virtual
page was appended to the same per-call list, so it is present.) -/
def listRemove (l : List Nat) (x : Nat) : List Nat :=
  match l with
  | [] => []
  | y :: rest => if y = x then rest else y :: listRemove rest x

/-! ## The scanner input

`os.listdir` entries are files or directories; for a file the external
reader (`self.readers.read_file`) and validity check
(`contents.is_valid_content`) are collaborators, so their outcome and
the metadata they deliver (`status`, language) are inputs of the model.
`included` is the verdict of `self._include_path` (extension check). -/

structure FileInfo where
  included : Bool
  readOk : Bool
  valid : Bool
  status : String
  langMeta : Option String
deriving Repr, DecidableEq

inductive Entry where
  | file (fname : String) (info : FileInfo)
  | dir (dname : String) (entries : List Entry)
deriving Repr

def Entry.name : Entry → String
  | .file f _ => f
  | .dir d _ => d

/-- Stable insertion into a sorted list, by Python string `<` on the
listing name. -/
def insortEntry (e : Entry) : List Entry → List Entry
  | [] => [e]
  | x :: xs => if strLt e.name x.name then e :: x :: xs else x :: insortEntry e xs

mutual
/-- Sort the sub-entries of a directory entry, recursively.  The source
sorts each directory level on entry to `_scan_dir_r`
(`sorted(os.listdir(path))`); since scanning never changes the listing,
pre-sorting the whole input forest is equivalent and keeps the scan
structurally recursive. -/
def sortTree : Entry → Entry
  | .file f i => .file f i
  | .dir d subs => .dir d (sortForest subs)

/-- Stable insertion sort of one directory level (Python `sorted`). -/
def sortForest : List Entry → List Entry
  | [] => []
  | e :: es => insortEntry (sortTree e) (sortForest es)
end

structure Settings where
  defaultLang : String
  exclude : List String
deriving Repr, DecidableEq

/-- The scanner state: the node arena, the per-call `pages` and
`hidden_pages` accumulators and the number of warnings logged so far. -/
structure ScanAcc where
  arena : List Node
  pages : List Nat
  hidden : List Nat
  warns : Nat
deriving Repr, DecidableEq

/-- Build the `HiPage` for a content file, as `HiPage.__init__` does for
a reader-constructed page: re-parse the extension-stripped base name
with `FILENAME_METADATA`, set `order` when the group matched,
`name = order + slugify(title)`, and apply the language fallback
(`lang is None` becomes the default language with
`in_default_lang = True`). -/
def mkFilePage (s : Settings) (base : String) (info : FileInfo) : Node :=
  let m := matchFilenameMetadata base
  let order := m.order.getD ""
  let title := m.title.getD ""
  let lang := info.langMeta.getD s.defaultLang
  { name := order ++ slugify title
    title := title
    order := order
    virtual := false
    lang := lang
    inDefaultLang := lang == s.defaultLang
    status := info.status
    parent := none
    subPages := [] }

/-- Build the virtual `HiPage` for a directory entry: metadata comes
from the directory name alone, `virtual=True`, the parent link is set at
construction, and the status defaults to `published` (Pelican's default
for pages without explicit status metadata). -/
def mkDirPage (s : Settings) (parentId : Nat) (dname : String) : Node :=
  let m := matchFilenameMetadata (splitExtBase dname)
  let order := m.order.getD ""
  let title := m.title.getD ""
  let lang := (m.lang).getD s.defaultLang
  { name := order ++ slugify title
    title := title
    order := order
    virtual := true
    lang := lang
    inDefaultLang := lang == s.defaultLang
    status := "published"
    parent := some parentId
    subPages := [] }

/-- The re-parenting loop
`for sub in old: page.sub_pages[sub.name] = sub; sub.parent = page`
over a snapshot `subs` of the displaced page's `sub_pages`. -/
def reparentSubs (a : List Node) (pageId : Nat) (subs : List (String × Nat)) : List Node :=
  subs.foldl
    (fun acc kv =>
      let acc1 := modNode acc pageId (fun n => { n with subPages := odSet n.subPages kv.1 kv.2 })
      modNode acc1 kv.2 (fun n => { n with parent := some pageId }))
    a

/-- Conflict resolution against an existing same-named child (source
lines 381-398): a virtual old page is re-parented onto the new page,
deleted from the mapping and removed from the per-call `pages` list; a
non-virtual old page is re-parented and unslotted only when the new page
is in the default language (and then stays in `pages`). -/
def resolveConflict (a0 : List Node) (parentId pageId : Nat) (page : Node)
    (pages : List Nat) : List Node × List Nat :=
  match odLookup (getNode a0 parentId).subPages page.name with
  | some oldId =>
    if (getNode a0 oldId).virtual then
      (modNode (reparentSubs a0 pageId (getNode a0 oldId).subPages) parentId
        (fun n => { n with subPages := odDel n.subPages page.name }),
       listRemove pages oldId)
    else if page.inDefaultLang then
      (modNode (reparentSubs a0 pageId (getNode a0 oldId).subPages) parentId
        (fun n => { n with subPages := odDel n.subPages page.name }),
       pages)
    else (a0, pages)
  | none => (a0, pages)

/-- Status dispatch (source lines 400-425).  Only the `published` branch
sets the parent link and (subject to the default-language-wins rule)
writes the parent's child-mapping slot; `hidden` goes to the hidden
list, `draft` to the page list, anything else logs a warning. -/
def dispatchStatus (parentId pageId : Nat) (page : Node) (a1 : List Node)
    (pages1 hidden : List Nat) (warns : Nat) : ScanAcc :=
  if page.status = "published" then
    let pages2 := pages1 ++ [pageId]
    let a2 := modNode a1 pageId (fun n => { n with parent := some parentId })
    if page.inDefaultLang then
      { arena := modNode a2 parentId (fun n => { n with subPages := odSet n.subPages page.name pageId })
        pages := pages2, hidden := hidden, warns := warns }
    else if (odLookup (getNode a2 parentId).subPages page.name).isNone then
      { arena := modNode a2 parentId (fun n => { n with subPages := odSet n.subPages page.name pageId })
        pages := pages2, hidden := hidden, warns := warns }
    else
      { arena := a2, pages := pages2, hidden := hidden, warns := warns + 1 }
  else if page.status = "hidden" then
    { arena := a1, pages := pages1, hidden := hidden ++ [pageId], warns := warns }
  else if page.status = "draft" then
    { arena := a1, pages := pages1 ++ [pageId], hidden := hidden, warns := warns }
  else
    { arena := a1, pages := pages1, hidden := hidden, warns := warns + 1 }

/-- Process one regular file item of `_scan_dir_r` (lines 353-425 of the
source): extension filter, reader, validity check, conflict resolution
against an existing same-named child, then status dispatch. -/
def processFile (s : Settings) (parentId : Nat) (fname : String) (info : FileInfo)
    (st : ScanAcc) : ScanAcc :=
  if !info.included then st
  else if !info.readOk then { st with warns := st.warns + 1 }
  else if !info.valid then { st with warns := st.warns + 1 }
  else
    let page := mkFilePage s (splitExtBase fname) info
    let pageId := st.arena.length
    let resolved := resolveConflict (st.arena ++ [page]) parentId pageId page st.pages
    dispatchStatus parentId pageId page resolved.1 resolved.2 st.hidden st.warns

mutual
/-- Total number of entries below (and including) one entry.  Used as
recursion fuel for the scan. -/
def entrySize : Entry → Nat
  | .file _ _ => 1
  | .dir _ subs => 1 + forestSize subs

/-- Total number of entries of a forest, nested directories included. -/
def forestSize : List Entry → Nat
  | [] => 0
  | e :: rest => entrySize e + forestSize rest
end

/-- The body of `_scan_dir_r` over one (pre-sorted) directory listing.
Directory items build a virtual page, reuse an existing same-named child
when present, append the page used as recursion parent to the per-call
`pages` list, and merge the recursive results.  The recursion is
bounded by explicit fuel (one unit per entry); `scanDirR` supplies
`forestSize`, which theorem `scanList_fuel_irrelevant` shows is always
enough, so the bound never changes the result. -/
def scanList (s : Settings) : Nat → Nat → List Entry → ScanAcc → ScanAcc
  | _, _, [], st => st
  | 0, _, _ :: _, st => st
  | fuel + 1, parentId, .file fname info :: rest, st =>
    scanList s fuel parentId rest (processFile s parentId fname info st)
  | fuel + 1, parentId, .dir dname subs :: rest, st =>
    if dname ∈ s.exclude then scanList s fuel parentId rest st
    else
      let v := mkDirPage s parentId dname
      let vId := st.arena.length
      let a0 := st.arena ++ [v]
      let used :=
        match odLookup (getNode a0 parentId).subPages v.name with
        | some oldId => (a0, oldId)
        | none =>
          (modNode a0 parentId (fun n => { n with subPages := odSet n.subPages v.name vId }), vId)
      let pages1 := st.pages ++ [used.2]
      let sub := scanList s fuel used.2 subs { arena := used.1, pages := [], hidden := [], warns := st.warns }
      scanList s fuel parentId rest
        { arena := sub.arena, pages := pages1 ++ sub.pages,
          hidden := st.hidden ++ sub.hidden, warns := sub.warns }

/-- `_scan_dir_r` for one base path: sort the listing (recursively, see
`sortTree`) and scan it with fresh per-call accumulators. -/
def scanDirR (s : Settings) (a : List Node) (parentId : Nat) (es : List Entry)
    (warns : Nat) : ScanAcc :=
  scanList s (forestSize (sortForest es)) parentId (sortForest es)
    { arena := a, pages := [], hidden := [], warns := warns }

/-- The synthetic root created by `generate_context`:
`HiPage("", slug='../index', name="index", title='Home', parent=None)`.
Without a source path the explicit keywords apply, so
`name = "" + slugify("index")`; the language defaults. -/
def rootNode (s : Settings) : Node :=
  { name := slugify "index", title := "Home", order := "", virtual := false,
    lang := s.defaultLang, inDefaultLang := true, status := "published",
    parent := none, subPages := [] }

/-- `generate_context` up to (and excluding) `process_translations`:
scan the page path below a fresh root (arena index 0). -/
def generateContext (s : Settings) (es : List Entry) : ScanAcc :=
  scanDirR s [rootNode s] 0 es 0

/-! ## Navigation: `hierarchy`, `level`, `breadcrumps`, `url_format` -/

/-- The `hierarchy` generator: follow `parent` links upward, yielding
each ancestor, until the link is absent.  The walk is a fresh traversal
of the current links on every invocation; the fuel argument only bounds
it so that the embedding is total, and `ancestors` instantiates the fuel
with the arena size (theorem `c5_depth_equals_ancestors` shows the bound
never binds on scanner-built arenas). -/
def ancestorsAux (a : List Node) : Nat → Option Nat → List Nat
  | 0, _ => []
  | _, none => []
  | fuel + 1, some j => j :: ancestorsAux a fuel (getNode a j).parent

/-- `list(self.hierarchy)` as arena indices. -/
def ancestors (a : List Node) (i : Nat) : List Nat :=
  ancestorsAux a a.length (getNode a i).parent

/-- `HiPage.level = len(list(self.hierarchy))`. -/
def level (a : List Node) (i : Nat) : Nat :=
  (ancestors a i).length

/-- The ancestors that have a parent themselves, i.e. the
`if p.parent` filter shared by `breadcrumps` and `url_format` (the
synthetic root is excluded). -/
def properAncestors (a : List Node) (i : Nat) : List Nat :=
  (ancestors a i).filter (fun p => (getNode a p).parent.isSome)

/-- The `hierarchy` entry added by `HiPage.url_format`:
`"/".join(reversed([p.name for p in self.hierarchy if p.parent]) + [self.name])`. -/
def hierPath (a : List Node) (i : Nat) : String :=
  String.intercalate "/" (((properAncestors a i).map (fun p => (getNode a p).name)).reverse
    ++ [(getNode a i).name])

/-- The page URL under the plugin's settings
(`HIPAGE_URL = "..."` with the hierarchy path spliced in front of the
`.html` suffix, and the `-lang` variant for translations). -/
def pageUrl (a : List Node) (i : Nat) : String :=
  if (getNode a i).inDefaultLang then hierPath a i ++ ".html"
  else hierPath a i ++ "-" ++ (getNode a i).lang ++ ".html"

/-- `HiPage.breadcrumps`: `(url, title)` pairs of the proper ancestors,
reversed so the outermost ancestor comes first. -/
def breadcrumps (a : List Node) (i : Nat) : List (String × String) :=
  (((properAncestors a i)).map (fun p => (pageUrl a p, (getNode a p).title))).reverse

/-! ## The translation back-fill of `generate_context`

After `process_translations` splits the flat list into originals
(`self.pages`) and translations, the source runs, for every translated
page, `for p in self.pages: if p.name == page.name: orig_page = p; break`
followed by `page.sub_pages.update(orig_page.sub_pages)`.  When no
original matches, `orig_page` stays `None` and the update raises an
`AttributeError`; the embedding returns `none` in that case. -/

/-- The linear search for the same-named original page. -/
def findOrig (a : List Node) (pagesL : List Nat) (nm : String) : Option Nat :=
  match pagesL with
  | [] => none
  | p :: rest => if (getNode a p).name = nm then some p else findOrig a rest nm

/-- The back-fill loop over the translations list. -/
def backfillTranslations (a : List Node) (pagesL : List Nat) :
    List Nat → Option (List Node)
  | [] => some a
  | t :: rest =>
    match findOrig a pagesL (getNode a t).name with
    | none => none
    | some o =>
      backfillTranslations
        (modNode a t (fun n => { n with subPages := odUpdate n.subPages (getNode a o).subPages }))
        pagesL rest

/-! ## The `ascii_tree` diagnostic printer

`ascii_tree` is generic over iterables; a `HiPage` iterates over its
`sub_pages` values, so a tree of display strings (the outputs of
`print_item`) is the exact input shape.  The printer emits
`"".join(prefix[:-1]) + last_prefix + print_item(tree) + "\n"` and
recurses with `"│   "`/`"├── "` for inner children and `"    "`/`"└── "`
for the last child. -/

inductive RTree where
  | node (label : String) (children : List RTree)
deriving Repr

mutual
/-- Structural equality test for rendered trees. -/
def rtreeBEq : RTree → RTree → Bool
  | .node l1 cs1, .node l2 cs2 => l1 == l2 && rforestBEq cs1 cs2

def rforestBEq : List RTree → List RTree → Bool
  | [], [] => true
  | t1 :: ts1, t2 :: ts2 => rtreeBEq t1 t2 && rforestBEq ts1 ts2
  | _, _ => false
end

mutual
theorem rtreeBEq_iff : ∀ (t1 t2 : RTree), rtreeBEq t1 t2 = true ↔ t1 = t2
  | .node l1 cs1, .node l2 cs2 => by
    rw [rtreeBEq, Bool.and_eq_true, beq_iff_eq]
    rw [rforestBEq_iff cs1 cs2]
    constructor
    · rintro ⟨h1, h2⟩
      rw [h1, h2]
    · intro h
      injection h with h1 h2
      exact ⟨h1, h2⟩

theorem rforestBEq_iff : ∀ (ts1 ts2 : List RTree), rforestBEq ts1 ts2 = true ↔ ts1 = ts2
  | [], [] => by simp [rforestBEq]
  | [], t2 :: ts2 => by simp [rforestBEq]
  | t1 :: ts1, [] => by simp [rforestBEq]
  | t1 :: ts1, t2 :: ts2 => by
    rw [rforestBEq, Bool.and_eq_true, rtreeBEq_iff t1 t2, rforestBEq_iff ts1 ts2]
    constructor
    · rintro ⟨h1, h2⟩
      rw [h1, h2]
    · intro h
      injection h with h1 h2
      exact ⟨h1, h2⟩
end

instance : DecidableEq RTree :=
  fun t1 t2 => decidable_of_iff (rtreeBEq t1 t2 = true) (rtreeBEq_iff t1 t2)

def RTree.label : RTree → String
  | .node l _ => l

def RTree.children : RTree → List RTree
  | .node _ cs => cs

mutual
/-- `ascii_tree(tree, print_item, prefix, last_prefix)`. -/
def asciiTree : RTree → List String → String → String
  | .node label cs, pre, lastPre =>
    String.join (pre.dropLast) ++ lastPre ++ label ++ "\n" ++ asciiChildren cs pre

/-- The enumerate loop: every child but the last uses the tee connector
and extends the prefix with `"│   "`; the last child uses the corner
connector and `"    "`. -/
def asciiChildren : List RTree → List String → String
  | [], _ => ""
  | [c], pre => asciiTree c (pre ++ ["    "]) "└── "
  | c :: c' :: cs, pre =>
    asciiTree c (pre ++ ["│   "]) "├── " ++ asciiChildren (c' :: cs) pre
end

/-- The tree of display strings of a scanned subtree (fuel-bounded
extraction from the arena; `HiPage.__iter__` yields the `sub_pages`
values in mapping order). -/
def toRTree (a : List Node) (printItem : Node → String) : Nat → Nat → RTree
  | 0, i => .node (printItem (getNode a i)) []
  | fuel + 1, i =>
    .node (printItem (getNode a i))
      ((getNode a i).subPages.map (fun kv => toRTree a printItem fuel kv.2))

/-! ## Common concrete material for the scenario claims -/

def enSettings : Settings := { defaultLang := "en", exclude := [] }

def pubFile : FileInfo :=
  { included := true, readOk := true, valid := true, status := "published", langMeta := none }

def pubFileDe : FileInfo := { pubFile with langMeta := some "de" }

def hiddenFile : FileInfo := { pubFile with status := "hidden" }

def draftFile : FileInfo := { pubFile with status := "draft" }

def bogusFile : FileInfo := { pubFile with status := "bogus" }

/-! ## C6: the extracted `order`

The page keeps `self.order = m['order']` when the group matched and the
empty string otherwise. -/

/-- `self.order` of a `HiPage` built from the base name `base`. -/
def extractedOrder (base : String) : String :=
  ((matchFilenameMetadata base).order).getD ""

/-- Following the claim's words: the order is the leading run of digits
optionally followed by an underscore, hyphen, or space, and the empty
string whenever the name has no leading digits. -/
def orderClaimC6 (base : String) : String :=
  let cs := base.toList
  let ds := cs.takeWhile Char.isDigit
  if ds.isEmpty then ""
  else
    match cs.dropWhile Char.isDigit with
    | c :: _ => if isSepChar c then String.mk (ds ++ [c]) else String.mk ds
    | [] => String.mk ds

/-- Following the amended wording: the separator after the digit run is
mandatory and belongs to the order (a digit run not followed by a
separator yields the empty order, while a lone leading separator yields
that separator); additionally, when nothing but a `-en`/`-de` suffix or
the end of the name follows the order, the regex backtracks and drops
the order group. -/
def orderAmendedC6 (base : String) : String :=
  let cs := base.toList
  let ds := cs.takeWhile Char.isDigit
  match cs.dropWhile Char.isDigit with
  | [] => ""
  | c :: rest =>
    if isSepChar c then
      if rest.isEmpty || (langHere rest).isSome then ""
      else String.mk (ds ++ [c])
    else ""

/-- The `title` group of `titleRun` is empty exactly on the empty input
or an immediate language suffix. -/
theorem titleRun_fst_isEmpty (cs : List Char) :
    (titleRun cs).1.isEmpty = (cs.isEmpty || (langHere cs).isSome) := by
  cases cs with
  | nil => rfl
  | cons c rest =>
    simp only [titleRun, List.isEmpty_cons, Bool.false_or]
    by_cases h : (langHere (c :: rest)).isSome
    · simp [h]
    · simp [h]

/-- C6, counterexample: for the base name `1x` the claim predicts the
order `1` (leading digits, separator optional), but the regex group
requires a separator and fails, so the stored order is empty. -/
theorem c6_counterexample :
    orderClaimC6 "1x" = "1" ∧ extractedOrder "1x" = "" ∧
      extractedOrder "1x" ≠ orderClaimC6 "1x" := by
  refine ⟨by decide, by decide, by decide⟩

/-- C6, amended: the extracted order is the leading digit run together
with one mandatory separator (`_`, `-` or space); it is empty when the
digit run is not followed by a separator, and also when only a language
suffix or nothing at all would remain after the order (the regex then
backtracks and drops the optional order group).  In particular a name
with no leading digits but a leading separator stores that separator as
its order. -/
theorem c6_order_requires_separator (base : String) :
    extractedOrder base = orderAmendedC6 base := by
  unfold extractedOrder orderAmendedC6 matchFilenameMetadata matchOrder
  simp only [String.toList]
  cases h : base.data.dropWhile Char.isDigit with
  | nil =>
    simp only [h]
    rcases htr : titleRun base.data with ⟨t, r⟩
    by_cases h2 : t.isEmpty <;> simp [h2]
  | cons c rest =>
    simp only [h]
    by_cases hsep : isSepChar c
    · simp only [hsep, if_true]
      have hempty := titleRun_fst_isEmpty rest
      rcases htr : titleRun rest with ⟨t, r⟩
      rw [htr] at hempty
      simp only at hempty
      rcases htr2 : titleRun base.data with ⟨t2, r2⟩
      by_cases ht : t.isEmpty
      · rw [ht] at hempty
        simp only [ht, ← hempty]
        by_cases ht2 : t2.isEmpty <;> simp [ht2]
      · have ht' : t.isEmpty = false := by
          cases hh : t.isEmpty
          · rfl
          · exact absurd hh ht
        rw [ht'] at hempty
        simp [ht', hempty.symm]
    · simp only [hsep]
      rcases htr : titleRun base.data with ⟨t, r⟩
      by_cases h2 : t.isEmpty <;> simp [hsep, h2]

/-! ## C1: node names and the ordering prefix

`HiPage.__init__` sets `self.name = self.order + utils.slugify(m['title'])`
(source line 162): the ordering prefix is part of the identity key, in
addition to being stored separately in `self.order`. -/

/-- Following the claim's words: the node name would be the filename
minus the ordering prefix, slugified. -/
def nameClaimC1 (base : String) : String :=
  slugify (((matchFilenameMetadata base).title).getD "")

/-- The scan of a directory holding `01_intro.md`, `02_body.md`,
`03_appendix.md` (default language, published). -/
def orderedScanC1 : ScanAcc :=
  generateContext enSettings
    [Entry.file "01_intro.md" pubFile, Entry.file "02_body.md" pubFile,
     Entry.file "03_appendix.md" pubFile]

/-- C1, counterexample: scanning `01_intro.md`, `02_body.md`,
`03_appendix.md` makes the parent's child mapping iterate the keys
`01_intro`, `02_body`, `03_appendix` — the order prefix stays in the
name, so the keys are not the `intro`, `body`, `appendix` the claim
requires (those are what the claim's name derivation would produce). -/
theorem c1_counterexample :
    (getNode orderedScanC1.arena 0).subPages.map Prod.fst
        = ["01_intro", "02_body", "03_appendix"] ∧
      [nameClaimC1 "01_intro", nameClaimC1 "02_body", nameClaimC1 "03_appendix"]
        = ["intro", "body", "appendix"] ∧
      (getNode orderedScanC1.arena 0).subPages.map Prod.fst
        ≠ ["intro", "body", "appendix"] :=
  ⟨by decide, by decide, by decide⟩

/-- C1, amended: a scanned node's name is the extracted order prefix
concatenated with the slugified title (the order is also stored
separately); hence for `01_intro.md`, `02_body.md`, `03_appendix.md` the
parent's child mapping iterates the keys `01_intro`, `02_body`,
`03_appendix`, in sorted filename order, and each node keeps its order
(`01_`, `02_`, `03_`) in the `order` attribute. -/
theorem c1_name_keeps_order_prefix :
    (∀ (s : Settings) (base : String) (info : FileInfo),
      (mkFilePage s base info).name
        = extractedOrder base ++ slugify (((matchFilenameMetadata base).title).getD "")) ∧
    (getNode orderedScanC1.arena 0).subPages.map Prod.fst
        = ["01_intro", "02_body", "03_appendix"] ∧
    (orderedScanC1.pages.map fun i => (getNode orderedScanC1.arena i).order)
        = ["01_", "02_", "03_"] :=
  ⟨fun _ _ _ => rfl, by decide, by decide⟩

/-! ## Arena lemmas -/

theorem getNode_eq_get? (a : List Node) (i : Nat) :
    getNode a i = (a.get? i).getD defNode := rfl

theorem length_modNode (a : List Node) (i : Nat) (f : Node → Node) :
    (modNode a i f).length = a.length :=
  List.length_set a i _

theorem getNode_append_self (a : List Node) (n : Node) :
    getNode (a ++ [n]) a.length = n := by
  rw [getNode_eq_get?, List.get?_concat_length]
  rfl

theorem getNode_append_lt (a : List Node) (n : Node) (i : Nat) (h : i < a.length) :
    getNode (a ++ [n]) i = getNode a i := by
  rw [getNode_eq_get?, getNode_eq_get?, List.get?_append h]

theorem getNode_modNode_self (a : List Node) (i : Nat) (f : Node → Node)
    (h : i < a.length) :
    getNode (modNode a i f) i = f (getNode a i) := by
  rw [getNode_eq_get?, modNode, List.get?_set_eq_of_lt _ h]
  rfl

theorem getNode_modNode_other (a : List Node) (i j : Nat) (f : Node → Node)
    (h : i ≠ j) :
    getNode (modNode a i f) j = getNode a j := by
  rw [getNode_eq_get?, getNode_eq_get?, modNode, List.get?_set_ne _ _ h]

theorem modNode_out (a : List Node) (i : Nat) (f : Node → Node)
    (h : a.length ≤ i) :
    modNode a i f = a :=
  List.set_eq_of_length_le h

/-! ## Association-list lemmas -/

theorem odLookup_mem {d : List (String × Nat)} {k : String} {v : Nat}
    (h : odLookup d k = some v) : (k, v) ∈ d := by
  induction d with
  | nil => simp [odLookup] at h
  | cons kv rest ih =>
    rw [odLookup] at h
    split at h
    · rename_i heq
      cases h
      exact List.mem_cons.mpr (Or.inl (by rw [← heq]))
    · exact List.mem_cons_of_mem _ (ih h)

theorem odLookup_odSet_self (d : List (String × Nat)) (k : String) (v : Nat) :
    odLookup (odSet d k v) k = some v := by
  induction d with
  | nil => simp [odSet, odLookup]
  | cons kv rest ih =>
    rw [odSet]
    split
    · simp [odLookup]
    · rename_i hne
      rw [odLookup, if_neg hne]
      exact ih

theorem odLookup_odSet_other (d : List (String × Nat)) (k k' : String) (v : Nat)
    (h : k' ≠ k) :
    odLookup (odSet d k v) k' = odLookup d k' := by
  have hne : ¬ k = k' := fun hh => h (Eq.symm hh)
  induction d with
  | nil =>
    show odLookup [(k, v)] k' = odLookup [] k'
    simp only [odLookup, if_neg hne]
  | cons kv rest ih =>
    rw [odSet]
    split
    · rename_i heq
      show odLookup ((k, v) :: rest) k' = odLookup (kv :: rest) k'
      simp only [odLookup, if_neg hne, heq]
    · show odLookup (kv :: odSet rest k v) k' = odLookup (kv :: rest) k'
      simp only [odLookup]
      split
      · rfl
      · exact ih

theorem odLookup_odDel_other (d : List (String × Nat)) (k k' : String)
    (h : k' ≠ k) :
    odLookup (odDel d k) k' = odLookup d k' := by
  have hne : ¬ k = k' := fun hh => h (Eq.symm hh)
  induction d with
  | nil => rfl
  | cons kv rest ih =>
    rw [odDel]
    split
    · rename_i heq
      have h2 : odLookup (kv :: rest) k' = odLookup rest k' := by
        simp only [odLookup, heq, if_neg hne]
      rw [h2]
    · show odLookup (kv :: odDel rest k) k' = odLookup (kv :: rest) k'
      simp only [odLookup]
      split
      · rfl
      · exact ih

theorem odLookup_odDel_self (d : List (String × Nat)) (k : String)
    (hnodup : (d.map Prod.fst).Nodup) :
    odLookup (odDel d k) k = none := by
  induction d with
  | nil => rfl
  | cons kv rest ih =>
    rw [List.map_cons, List.nodup_cons] at hnodup
    rw [odDel]
    split
    · rename_i heq
      cases hk : odLookup rest k with
      | none => rfl
      | some v =>
        exfalso
        exact hnodup.1 (heq ▸ (List.mem_map.mpr ⟨(k, v), odLookup_mem hk, rfl⟩))
    · rename_i hne
      rw [odLookup, if_neg hne]
      exact ih hnodup.2

theorem mem_odDel {d : List (String × Nat)} {k : String} {kv : String × Nat}
    (h : kv ∈ odDel d k) : kv ∈ d := by
  induction d with
  | nil => exact absurd h (List.not_mem_nil kv)
  | cons kv' rest ih =>
    rw [odDel] at h
    split at h
    · exact List.mem_cons_of_mem _ h
    · rcases List.mem_cons.mp h with h1 | h2
      · exact h1 ▸ List.mem_cons_self _ _
      · exact List.mem_cons_of_mem _ (ih h2)

theorem mem_odSet {d : List (String × Nat)} {k : String} {v : Nat}
    {kv : String × Nat} (h : kv ∈ odSet d k v) : kv ∈ d ∨ kv = (k, v) := by
  induction d with
  | nil =>
    rw [odSet] at h
    right
    simpa using h
  | cons kv' rest ih =>
    rw [odSet] at h
    split at h
    · rcases List.mem_cons.mp h with h1 | h2
      · right
        exact h1
      · left
        exact List.mem_cons_of_mem _ h2
    · rcases List.mem_cons.mp h with h1 | h2
      · left
        exact h1 ▸ List.mem_cons_self _ _
      · rcases ih h2 with h3 | h3
        · left
          exact List.mem_cons_of_mem _ h3
        · right
          exact h3

theorem odLookup_odUpdate_notin (d src : List (String × Nat)) (k : String)
    (h : ∀ kv ∈ src, kv.1 ≠ k) :
    odLookup (odUpdate d src) k = odLookup d k := by
  induction src generalizing d with
  | nil => rfl
  | cons kv rest ih =>
    rw [odUpdate, List.foldl_cons]
    have : List.foldl (fun acc kv => odSet acc kv.1 kv.2) (odSet d kv.1 kv.2) rest
        = odUpdate (odSet d kv.1 kv.2) rest := rfl
    rw [this, ih _ (fun kv' hkv' => h kv' (List.mem_cons_of_mem _ hkv'))]
    exact odLookup_odSet_other _ _ _ _ (fun he => h kv (List.mem_cons_self _ _) he.symm)

theorem odLookup_odUpdate_mem (d src : List (String × Nat)) (k : String) (v : Nat)
    (hmem : (k, v) ∈ src) (hnodup : (src.map Prod.fst).Nodup) :
    odLookup (odUpdate d src) k = some v := by
  induction src generalizing d with
  | nil => exact absurd hmem (List.not_mem_nil _)
  | cons kv rest ih =>
    rw [List.map_cons, List.nodup_cons] at hnodup
    rw [odUpdate, List.foldl_cons]
    have hfold : List.foldl (fun acc kv => odSet acc kv.1 kv.2) (odSet d kv.1 kv.2) rest
        = odUpdate (odSet d kv.1 kv.2) rest := rfl
    rw [hfold]
    rcases List.mem_cons.mp hmem with h1 | h2
    · cases h1
      rw [odLookup_odUpdate_notin]
      · exact odLookup_odSet_self _ _ _
      · intro kv' hkv' he
        exact hnodup.1 (he ▸ List.mem_map.mpr ⟨kv', hkv', rfl⟩)
    · exact ih _ h2 hnodup.2

/-! ## Lemmas about the re-parenting loop -/

theorem reparentSubs_length (a : List Node) (pid : Nat) (subs : List (String × Nat)) :
    (reparentSubs a pid subs).length = a.length := by
  induction subs generalizing a with
  | nil => rfl
  | cons kv rest ih =>
    rw [reparentSubs, List.foldl_cons]
    have h2 := ih (modNode (modNode a pid
      (fun n => { n with subPages := odSet n.subPages kv.1 kv.2 })) kv.2
      (fun n => { n with parent := some pid }))
    rw [reparentSubs] at h2
    rw [h2, length_modNode, length_modNode]

theorem reparentSubs_cons (a : List Node) (pid : Nat) (kv : String × Nat)
    (rest : List (String × Nat)) :
    reparentSubs a pid (kv :: rest)
      = reparentSubs (modNode (modNode a pid
          (fun n => { n with subPages := odSet n.subPages kv.1 kv.2 })) kv.2
          (fun n => { n with parent := some pid })) pid rest := rfl

/-- Reading a node through a projection that the modification does not
change gives the old value, whatever the index. -/
theorem getNode_modNode_proj {A : Type} (p : Node -> A) (a : List Node) (i : Nat)
    (f : Node → Node) (j : Nat) (hf : ∀ n, p (f n) = p n) :
    p (getNode (modNode a i f) j) = p (getNode a j) := by
  by_cases h : i = j
  · subst h
    by_cases h2 : i < a.length
    · rw [getNode_modNode_self _ _ _ h2, hf]
    · rw [modNode_out _ _ _ (Nat.le_of_not_lt h2)]
  · rw [getNode_modNode_other _ _ _ _ h]

/-- Nodes that are neither the target page nor re-parented children are
untouched by the loop. -/
theorem getNode_reparentSubs_untouched (a : List Node) (pid : Nat)
    (subs : List (String × Nat)) (j : Nat) (hj : j ≠ pid)
    (hnv : ∀ kv ∈ subs, kv.2 ≠ j) :
    getNode (reparentSubs a pid subs) j = getNode a j := by
  induction subs generalizing a with
  | nil => rfl
  | cons kv rest ih =>
    rw [reparentSubs_cons, ih _ (fun kv' h' => hnv kv' (List.mem_cons_of_mem _ h'))]
    rw [getNode_modNode_other _ _ _ _ (fun he => hnv kv (List.mem_cons_self _ _) he)]
    rw [getNode_modNode_other _ _ _ _ (fun he => hj he.symm)]

/-- The loop writes only `subPages` of the target and `parent` of the
children, so every node keeps every other field; we use it through the
projection argument. -/
theorem getNode_reparentSubs_proj {A : Type} (p : Node -> A) (a : List Node)
    (pid : Nat) (subs : List (String × Nat)) (j : Nat)
    (hp1 : ∀ (n : Node) (sp : List (String × Nat)), p { n with subPages := sp } = p n)
    (hp2 : ∀ (n : Node) (q : Option Nat), p { n with parent := q } = p n) :
    p (getNode (reparentSubs a pid subs) j) = p (getNode a j) := by
  induction subs generalizing a with
  | nil => rfl
  | cons kv rest ih =>
    rw [reparentSubs_cons, ih]
    rw [getNode_modNode_proj p _ _ _ _ (fun n => hp2 n _)]
    rw [getNode_modNode_proj p _ _ _ _ (fun n => hp1 n _)]

/-- Other nodes' child mappings are untouched by the loop. -/
theorem reparentSubs_subPages_other (a : List Node) (pid : Nat)
    (subs : List (String × Nat)) (j : Nat) (hj : j ≠ pid) :
    (getNode (reparentSubs a pid subs) j).subPages = (getNode a j).subPages := by
  induction subs generalizing a with
  | nil => rfl
  | cons kv rest ih =>
    rw [reparentSubs_cons, ih]
    rw [getNode_modNode_proj Node.subPages _ kv.2
      (fun n => { n with parent := some pid }) j (fun n => rfl)]
    exact congrArg Node.subPages (getNode_modNode_other _ _ _ _ (fun he => hj he.symm))

/-- The target page accumulates the children through repeated
`sub_pages` assignments. -/
theorem getNode_reparentSubs_self (a : List Node) (pid : Nat)
    (subs : List (String × Nat)) (hpid : pid < a.length)
    (hvals : ∀ kv ∈ subs, kv.2 ≠ pid) :
    getNode (reparentSubs a pid subs) pid
      = { getNode a pid with subPages := odUpdate (getNode a pid).subPages subs } := by
  induction subs generalizing a with
  | nil => rfl
  | cons kv rest ih =>
    rw [reparentSubs_cons]
    have hlen : pid < (modNode (modNode a pid
        (fun n => { n with subPages := odSet n.subPages kv.1 kv.2 })) kv.2
        (fun n => { n with parent := some pid })).length := by
      rw [length_modNode, length_modNode]
      exact hpid
    rw [ih _ hlen (fun kv' h' => hvals kv' (List.mem_cons_of_mem _ h'))]
    rw [getNode_modNode_other _ _ _ _ (hvals kv (List.mem_cons_self _ _))]
    rw [getNode_modNode_self _ _ _ hpid]
    rfl

/-- A node whose parent link already points at the target keeps it. -/
theorem reparentSubs_parent_stable (a : List Node) (pid : Nat)
    (subs : List (String × Nat)) (j : Nat) (hj : j ≠ pid)
    (h : (getNode a j).parent = some pid) :
    (getNode (reparentSubs a pid subs) j).parent = some pid := by
  induction subs generalizing a with
  | nil => exact h
  | cons kv rest ih =>
    rw [reparentSubs_cons]
    refine ih _ ?_
    by_cases h1 : kv.2 = j
    · subst h1
      by_cases h2 : kv.2 < a.length
      · rw [getNode_modNode_self _ _ _ (by rw [length_modNode]; exact h2)]
      · rw [modNode_out _ _ _ (by rw [length_modNode]; exact Nat.le_of_not_lt h2)]
        rw [getNode_modNode_other _ _ _ _ (fun he => hj he.symm), h]
    · rw [getNode_modNode_other _ _ _ _ h1]
      rw [getNode_modNode_other _ _ _ _ (fun he => hj he.symm), h]

/-- Every re-parented child ends up with the target as its parent. -/
theorem reparentSubs_parent_of_mem (a : List Node) (pid : Nat)
    (subs : List (String × Nat)) (j : Nat) (hj : j ≠ pid) (hjlt : j < a.length)
    (hmem : ∃ kv ∈ subs, kv.2 = j) :
    (getNode (reparentSubs a pid subs) j).parent = some pid := by
  induction subs generalizing a with
  | nil =>
    obtain ⟨kv, hkv, _⟩ := hmem
    exact absurd hkv (List.not_mem_nil kv)
  | cons kv rest ih =>
    rw [reparentSubs_cons]
    obtain ⟨kv', hkv', hkvj⟩ := hmem
    rcases List.mem_cons.mp hkv' with h1 | h2
    · subst h1
      refine reparentSubs_parent_stable _ _ _ _ hj ?_
      rw [hkvj]
      rw [getNode_modNode_self _ _ _ (by rw [length_modNode]; exact hjlt)]
    · refine ih _ ?_ ⟨kv', h2, hkvj⟩
      rw [length_modNode, length_modNode]
      exact hjlt

/-! ## Unfolding lemmas for the scanner step -/

theorem processFile_valid (s : Settings) (parentId : Nat) (fname : String)
    (info : FileInfo) (st : ScanAcc) (hinc : info.included = true)
    (hok : info.readOk = true) (hval : info.valid = true) :
    processFile s parentId fname info st
      = dispatchStatus parentId st.arena.length (mkFilePage s (splitExtBase fname) info)
          (resolveConflict (st.arena ++ [mkFilePage s (splitExtBase fname) info]) parentId
            st.arena.length (mkFilePage s (splitExtBase fname) info) st.pages).1
          (resolveConflict (st.arena ++ [mkFilePage s (splitExtBase fname) info]) parentId
            st.arena.length (mkFilePage s (splitExtBase fname) info) st.pages).2
          st.hidden st.warns := by
  rw [processFile, hinc, hok, hval]
  rfl

theorem resolveConflict_none (a0 : List Node) (parentId pageId : Nat) (page : Node)
    (pages : List Nat)
    (h : odLookup (getNode a0 parentId).subPages page.name = none) :
    resolveConflict a0 parentId pageId page pages = (a0, pages) := by
  rw [resolveConflict, h]

theorem resolveConflict_virtual (a0 : List Node) (parentId pageId oldId : Nat)
    (page : Node) (pages : List Nat)
    (h : odLookup (getNode a0 parentId).subPages page.name = some oldId)
    (hv : (getNode a0 oldId).virtual = true) :
    resolveConflict a0 parentId pageId page pages
      = (modNode (reparentSubs a0 pageId (getNode a0 oldId).subPages) parentId
          (fun n => { n with subPages := odDel n.subPages page.name }),
         listRemove pages oldId) := by
  rw [resolveConflict, h]
  simp [hv]

theorem resolveConflict_defLang (a0 : List Node) (parentId pageId oldId : Nat)
    (page : Node) (pages : List Nat)
    (h : odLookup (getNode a0 parentId).subPages page.name = some oldId)
    (hv : (getNode a0 oldId).virtual = false) (hd : page.inDefaultLang = true) :
    resolveConflict a0 parentId pageId page pages
      = (modNode (reparentSubs a0 pageId (getNode a0 oldId).subPages) parentId
          (fun n => { n with subPages := odDel n.subPages page.name }),
         pages) := by
  rw [resolveConflict, h]
  simp [hv, hd]

theorem resolveConflict_keep (a0 : List Node) (parentId pageId oldId : Nat)
    (page : Node) (pages : List Nat)
    (h : odLookup (getNode a0 parentId).subPages page.name = some oldId)
    (hv : (getNode a0 oldId).virtual = false) (hd : page.inDefaultLang = false) :
    resolveConflict a0 parentId pageId page pages = (a0, pages) := by
  rw [resolveConflict, h]
  simp [hv, hd]

theorem dispatchStatus_pub_default (parentId pageId : Nat) (page : Node)
    (a1 : List Node) (pages1 hidden : List Nat) (warns : Nat)
    (hs : page.status = "published") (hd : page.inDefaultLang = true) :
    dispatchStatus parentId pageId page a1 pages1 hidden warns
      = { arena := modNode (modNode a1 pageId (fun n => { n with parent := some parentId }))
            parentId (fun n => { n with subPages := odSet n.subPages page.name pageId })
          pages := pages1 ++ [pageId], hidden := hidden, warns := warns } := by
  rw [dispatchStatus, if_pos hs]
  simp [hd]

theorem dispatchStatus_pub_free (parentId pageId : Nat) (page : Node)
    (a1 : List Node) (pages1 hidden : List Nat) (warns : Nat)
    (hs : page.status = "published") (hd : page.inDefaultLang = false)
    (hfree : odLookup (getNode (modNode a1 pageId (fun n => { n with parent := some parentId }))
        parentId).subPages page.name = none) :
    dispatchStatus parentId pageId page a1 pages1 hidden warns
      = { arena := modNode (modNode a1 pageId (fun n => { n with parent := some parentId }))
            parentId (fun n => { n with subPages := odSet n.subPages page.name pageId })
          pages := pages1 ++ [pageId], hidden := hidden, warns := warns } := by
  rw [dispatchStatus, if_pos hs]
  simp [hd, hfree]

theorem dispatchStatus_pub_clash (parentId pageId : Nat) (page : Node)
    (a1 : List Node) (pages1 hidden : List Nat) (warns : Nat)
    (hs : page.status = "published") (hd : page.inDefaultLang = false)
    (hclash : (odLookup (getNode (modNode a1 pageId (fun n => { n with parent := some parentId }))
        parentId).subPages page.name).isNone = false) :
    dispatchStatus parentId pageId page a1 pages1 hidden warns
      = { arena := modNode a1 pageId (fun n => { n with parent := some parentId })
          pages := pages1 ++ [pageId], hidden := hidden, warns := warns + 1 } := by
  rw [dispatchStatus, if_pos hs]
  simp [hd, hclash]

theorem dispatchStatus_hidden (parentId pageId : Nat) (page : Node)
    (a1 : List Node) (pages1 hidden : List Nat) (warns : Nat)
    (hs : page.status = "hidden") :
    dispatchStatus parentId pageId page a1 pages1 hidden warns
      = { arena := a1, pages := pages1, hidden := hidden ++ [pageId], warns := warns } := by
  rw [dispatchStatus]
  simp [hs]

theorem dispatchStatus_draft (parentId pageId : Nat) (page : Node)
    (a1 : List Node) (pages1 hidden : List Nat) (warns : Nat)
    (hs : page.status = "draft") :
    dispatchStatus parentId pageId page a1 pages1 hidden warns
      = { arena := a1, pages := pages1 ++ [pageId], hidden := hidden, warns := warns } := by
  rw [dispatchStatus]
  simp [hs]

theorem dispatchStatus_unknown (parentId pageId : Nat) (page : Node)
    (a1 : List Node) (pages1 hidden : List Nat) (warns : Nat)
    (h1 : page.status ≠ "published") (h2 : page.status ≠ "hidden")
    (h3 : page.status ≠ "draft") :
    dispatchStatus parentId pageId page a1 pages1 hidden warns
      = { arena := a1, pages := pages1, hidden := hidden, warns := warns + 1 } := by
  rw [dispatchStatus]
  simp [h1, h2, h3]

/-! ## C2: the slot rule for published pages -/

/-- C2: when a published page is inserted under a parent whose existing
entry for the name (if any) is not virtual: a default-language page
always becomes the parent's child-mapping entry for its name, after
re-parenting any displaced entry's children onto itself; a
non-default-language page takes the slot only when no entry exists;
otherwise a collision warning is logged, the existing tree entry is left
untouched and the new page still lands in the flat page list. -/
theorem c2_published_slot_rule (s : Settings) (parentId : Nat) (fname : String)
    (info : FileInfo) (st : ScanAcc)
    (hinc : info.included = true) (hok : info.readOk = true) (hval : info.valid = true)
    (hpub : info.status = "published")
    (hpar : parentId < st.arena.length)
    (hnonvirt : ∀ oldId, odLookup (getNode st.arena parentId).subPages
        (mkFilePage s (splitExtBase fname) info).name = some oldId →
        (getNode st.arena oldId).virtual = false)
    (hclosed : ∀ oldId, odLookup (getNode st.arena parentId).subPages
        (mkFilePage s (splitExtBase fname) info).name = some oldId →
        oldId < st.arena.length ∧
        (∀ kv ∈ (getNode st.arena oldId).subPages, kv.2 < st.arena.length) ∧
        (((getNode st.arena oldId).subPages).map Prod.fst).Nodup) :
    ((mkFilePage s (splitExtBase fname) info).inDefaultLang = true →
      odLookup (getNode (processFile s parentId fname info st).arena parentId).subPages
          (mkFilePage s (splitExtBase fname) info).name = some st.arena.length ∧
      st.arena.length ∈ (processFile s parentId fname info st).pages ∧
      (∀ oldId, odLookup (getNode st.arena parentId).subPages
          (mkFilePage s (splitExtBase fname) info).name = some oldId →
        ∀ kv ∈ (getNode st.arena oldId).subPages,
          odLookup (getNode (processFile s parentId fname info st).arena
              st.arena.length).subPages kv.1 = some kv.2 ∧
          (getNode (processFile s parentId fname info st).arena kv.2).parent
              = some st.arena.length)) ∧
    ((mkFilePage s (splitExtBase fname) info).inDefaultLang = false →
      odLookup (getNode st.arena parentId).subPages
          (mkFilePage s (splitExtBase fname) info).name = none →
      odLookup (getNode (processFile s parentId fname info st).arena parentId).subPages
          (mkFilePage s (splitExtBase fname) info).name = some st.arena.length ∧
      st.arena.length ∈ (processFile s parentId fname info st).pages) ∧
    ((mkFilePage s (splitExtBase fname) info).inDefaultLang = false →
      ∀ oldId, odLookup (getNode st.arena parentId).subPages
          (mkFilePage s (splitExtBase fname) info).name = some oldId →
        odLookup (getNode (processFile s parentId fname info st).arena parentId).subPages
            (mkFilePage s (splitExtBase fname) info).name = some oldId ∧
        st.arena.length ∈ (processFile s parentId fname info st).pages ∧
        (processFile s parentId fname info st).warns = st.warns + 1) := by
  have hps : (mkFilePage s (splitExtBase fname) info).status = "published" := by
    simp [mkFilePage, hpub]
  rw [processFile_valid s parentId fname info st hinc hok hval]
  set page := mkFilePage s (splitExtBase fname) info with hpagedef
  set pageId := st.arena.length with hpageIddef
  set a0 := st.arena ++ [page] with ha0def
  have hparne : parentId ≠ pageId := Nat.ne_of_lt hpar
  have hparlt0 : parentId < a0.length := by
    rw [ha0def, List.length_append]
    exact Nat.lt_succ_of_lt hpar
  have hGetPar0 : getNode a0 parentId = getNode st.arena parentId :=
    getNode_append_lt _ _ _ hpar
  have hpage0 : getNode a0 pageId = page := getNode_append_self _ _
  have hsubpage : page.subPages = [] := by
    rw [hpagedef]
    rfl
  cases hl : odLookup (getNode st.arena parentId).subPages page.name with
  | none =>
    have hl0 : odLookup (getNode a0 parentId).subPages page.name = none := by
      rw [hGetPar0]
      exact hl
    rw [resolveConflict_none _ _ _ _ _ hl0]
    refine ⟨?_, ?_, ?_⟩
    · intro hd
      rw [dispatchStatus_pub_default _ _ _ _ _ _ _ hps hd]
      refine ⟨?_, ?_, ?_⟩
      · rw [getNode_modNode_self _ _ _ (by
          rw [length_modNode, ha0def, List.length_append]
          exact Nat.lt_succ_of_lt hpar)]
        exact odLookup_odSet_self _ _ _
      · exact List.mem_append_right _ (List.mem_singleton.mpr rfl)
      · intro oldId hold
        simp at hold
    · intro hd hnone
      have hfree : odLookup (getNode (modNode a0 pageId
          (fun n => { n with parent := some parentId })) parentId).subPages page.name
          = none := by
        rw [getNode_modNode_other _ _ _ _ (fun he => hparne he.symm), hGetPar0]
        exact hl
      rw [dispatchStatus_pub_free _ _ _ _ _ _ _ hps hd hfree]
      constructor
      · rw [getNode_modNode_self _ _ _ (by
          rw [length_modNode, ha0def, List.length_append]
          exact Nat.lt_succ_of_lt hpar)]
        exact odLookup_odSet_self _ _ _
      · exact List.mem_append_right _ (List.mem_singleton.mpr rfl)
    · intro hd oldId hold
      simp at hold
  | some oldId =>
    obtain ⟨holdlt, hsubslt, hsubsnd⟩ := hclosed oldId hl
    have holdne : oldId ≠ pageId := Nat.ne_of_lt holdlt
    have hl0 : odLookup (getNode a0 parentId).subPages page.name = some oldId := by
      rw [hGetPar0]
      exact hl
    have hGetOld0 : getNode a0 oldId = getNode st.arena oldId :=
      getNode_append_lt _ _ _ holdlt
    have hv0 : (getNode a0 oldId).virtual = false := by
      rw [hGetOld0]
      exact hnonvirt oldId hl
    have hsubs0 : (getNode a0 oldId).subPages = (getNode st.arena oldId).subPages := by
      rw [hGetOld0]
    refine ⟨?_, ?_, ?_⟩
    · intro hd
      rw [resolveConflict_defLang _ _ _ _ _ _ hl0 hv0 hd]
      rw [dispatchStatus_pub_default _ _ _ _ _ _ _ hps hd]
      have hvals : ∀ kv ∈ (getNode a0 oldId).subPages, kv.2 ≠ pageId := by
        intro kv hkv
        rw [hsubs0] at hkv
        exact Nat.ne_of_lt (hsubslt kv hkv)
      have hpagelt0 : pageId < a0.length := by
        rw [ha0def, List.length_append]
        exact Nat.lt_succ_self _
      have hRSpage : getNode (reparentSubs a0 pageId (getNode a0 oldId).subPages) pageId
          = { page with subPages := odUpdate page.subPages (getNode a0 oldId).subPages } := by
        rw [getNode_reparentSubs_self _ _ _ hpagelt0 hvals, hpage0]
      refine ⟨?_, ?_, ?_⟩
      · rw [getNode_modNode_self _ _ _ (by
          rw [length_modNode, length_modNode, reparentSubs_length, ha0def,
            List.length_append]
          exact Nat.lt_succ_of_lt hpar)]
        exact odLookup_odSet_self _ _ _
      · exact List.mem_append_right _ (List.mem_singleton.mpr rfl)
      · intro oldId2 hold2 kv hkv
        have hoo : oldId2 = oldId := by
          injection hold2 with hh
          exact hh.symm
        subst hoo
        have hkv0 : kv ∈ (getNode a0 oldId2).subPages := by
          rw [hsubs0]
          exact hkv
        constructor
        · rw [getNode_modNode_other _ _ _ _ hparne]
          rw [getNode_modNode_self _ _ _ (by
            rw [length_modNode, reparentSubs_length]
            exact hpagelt0)]
          show odLookup (getNode (modNode (reparentSubs a0 pageId
              (getNode a0 oldId2).subPages) parentId
              (fun n => { n with subPages := odDel n.subPages page.name }))
              pageId).subPages kv.1 = some kv.2
          rw [getNode_modNode_other _ _ _ _ hparne]
          rw [hRSpage, hsubpage]
          show odLookup (odUpdate [] (getNode a0 oldId2).subPages) kv.1 = some kv.2
          refine odLookup_odUpdate_mem _ _ _ _ ?_ ?_
          · exact hkv0
          · rw [hsubs0]
            exact hsubsnd
        · rw [getNode_modNode_proj Node.parent _ parentId
            (fun n => { n with subPages := odSet n.subPages page.name pageId }) kv.2
            (fun n => rfl)]
          rw [getNode_modNode_other _ _ _ _ (fun he => hvals kv hkv0 he.symm)]
          rw [getNode_modNode_proj Node.parent _ parentId
            (fun n => { n with subPages := odDel n.subPages page.name }) kv.2
            (fun n => rfl)]
          refine reparentSubs_parent_of_mem _ _ _ _ (hvals kv hkv0) ?_ ⟨kv, hkv0, rfl⟩
          rw [ha0def, List.length_append]
          exact Nat.lt_succ_of_lt (hsubslt kv hkv)
    · intro hd hnone
      exact Option.noConfusion hnone
    · intro hd oldId2 hold2
      have hoo : oldId2 = oldId := by
        injection hold2 with hh
        exact hh.symm
      subst hoo
      rw [resolveConflict_keep _ _ _ _ _ _ hl0 hv0 hd]
      have hclash : (odLookup (getNode (modNode a0 pageId
          (fun n => { n with parent := some parentId })) parentId).subPages
          page.name).isNone = false := by
        rw [getNode_modNode_other _ _ _ _ (fun he => hparne he.symm), hGetPar0, hl]
        rfl
      rw [dispatchStatus_pub_clash _ _ _ _ _ _ _ hps hd hclash]
      refine ⟨?_, ?_, rfl⟩
      · rw [getNode_modNode_other _ _ _ _ (fun he => hparne he.symm), hGetPar0]
        exact hl
      · exact List.mem_append_right _ (List.mem_singleton.mpr rfl)

/-- Witness for the slot rule: after `b.md` claimed the `b` slot under
the root, processing the translation `b-de.md` leaves the slot pointing
at the original page, appends the translation to the flat list, and
logs one collision warning. -/
theorem c2_published_slot_rule_witness :
    odLookup (getNode (processFile enSettings 0 "b-de.md" pubFileDe
          (generateContext enSettings [Entry.file "b.md" pubFile])).arena 0).subPages
        (mkFilePage enSettings (splitExtBase "b-de.md") pubFileDe).name = some 1 ∧
    (generateContext enSettings [Entry.file "b.md" pubFile]).arena.length
        ∈ (processFile enSettings 0 "b-de.md" pubFileDe
            (generateContext enSettings [Entry.file "b.md" pubFile])).pages ∧
    (processFile enSettings 0 "b-de.md" pubFileDe
          (generateContext enSettings [Entry.file "b.md" pubFile])).warns
        = (generateContext enSettings [Entry.file "b.md" pubFile]).warns + 1 :=
  (c2_published_slot_rule enSettings 0 "b-de.md" pubFileDe
      (generateContext enSettings [Entry.file "b.md" pubFile])
      rfl rfl rfl rfl (by decide)
      (by
        intro oldId h
        have he : odLookup (getNode (generateContext enSettings
            [Entry.file "b.md" pubFile]).arena 0).subPages
            (mkFilePage enSettings (splitExtBase "b-de.md") pubFileDe).name = some 1 := by
          decide
        rw [he] at h
        injection h with h2
        rw [← h2]
        decide)
      (by
        intro oldId h
        have he : odLookup (getNode (generateContext enSettings
            [Entry.file "b.md" pubFile]).arena 0).subPages
            (mkFilePage enSettings (splitExtBase "b-de.md") pubFileDe).name = some 1 := by
          decide
        rw [he] at h
        injection h with h2
        rw [← h2]
        refine ⟨by decide, by decide, by decide⟩)).2.2
    (by decide) 1 (by decide)

/-! ## C3: a real page replaces a virtual placeholder -/

theorem not_mem_listRemove_of_nodup (l : List Nat) (x : Nat) (h : l.Nodup) :
    x ∉ listRemove l x := by
  induction l with
  | nil => exact List.not_mem_nil x
  | cons y rest ih =>
    rw [List.nodup_cons] at h
    rw [listRemove]
    split
    · rename_i he
      rw [← he]
      exact h.1
    · rename_i he
      intro hmem
      rcases List.mem_cons.mp hmem with h1 | h2
      · exact he h1.symm
      · exact ih h.2 h2

/-- The scan of a directory holding `foo/` (containing `bar.md`) and
`foo.md`. -/
def fooScanC3 : ScanAcc :=
  generateContext enSettings
    [Entry.dir "foo" [Entry.file "bar.md" pubFile], Entry.file "foo.md" pubFile]

/-- C3: when a published default-language file is scanned and the parent
already holds a virtual child of the same name, the virtual child's
children are all re-parented onto the new real node, the virtual child
leaves both the parent's child mapping (its slot now holds the real,
non-virtual node) and the flat page list, and — in the `foo/` plus
`foo.md` scenario — scanning yields exactly one non-virtual `foo` node,
zero virtual ones, and `bar` is a child of the real node. -/
theorem c3_virtual_replaced_by_real (s : Settings) (parentId : Nat) (fname : String)
    (info : FileInfo) (st : ScanAcc) (oldId : Nat)
    (hinc : info.included = true) (hok : info.readOk = true) (hval : info.valid = true)
    (hpub : info.status = "published")
    (hd : (mkFilePage s (splitExtBase fname) info).inDefaultLang = true)
    (hpar : parentId < st.arena.length)
    (hl : odLookup (getNode st.arena parentId).subPages
        (mkFilePage s (splitExtBase fname) info).name = some oldId)
    (hv : (getNode st.arena oldId).virtual = true)
    (holdlt : oldId < st.arena.length)
    (hsubslt : ∀ kv ∈ (getNode st.arena oldId).subPages, kv.2 < st.arena.length)
    (hsubsnd : (((getNode st.arena oldId).subPages).map Prod.fst).Nodup)
    (hpnd : st.pages.Nodup) :
    (odLookup (getNode (processFile s parentId fname info st).arena parentId).subPages
        (mkFilePage s (splitExtBase fname) info).name = some st.arena.length ∧
      (getNode (processFile s parentId fname info st).arena st.arena.length).virtual
          = false ∧
      st.arena.length ∈ (processFile s parentId fname info st).pages ∧
      oldId ∉ (processFile s parentId fname info st).pages ∧
      ∀ kv ∈ (getNode st.arena oldId).subPages,
        odLookup (getNode (processFile s parentId fname info st).arena
            st.arena.length).subPages kv.1 = some kv.2 ∧
        (getNode (processFile s parentId fname info st).arena kv.2).parent
            = some st.arena.length) ∧
    ((fooScanC3.pages.filter (fun i =>
        (getNode fooScanC3.arena i).name == "foo"
          && !(getNode fooScanC3.arena i).virtual)).length = 1 ∧
      (fooScanC3.pages.filter (fun i =>
        (getNode fooScanC3.arena i).name == "foo"
          && (getNode fooScanC3.arena i).virtual)).length = 0 ∧
      odLookup (getNode fooScanC3.arena 0).subPages "foo" = some 3 ∧
      odLookup (getNode fooScanC3.arena 3).subPages "bar" = some 2 ∧
      (getNode fooScanC3.arena 2).parent = some 3) := by
  refine ⟨?_, by decide, by decide, by decide, by decide, by decide⟩
  have hps : (mkFilePage s (splitExtBase fname) info).status = "published" := by
    simp [mkFilePage, hpub]
  rw [processFile_valid s parentId fname info st hinc hok hval]
  set page := mkFilePage s (splitExtBase fname) info with hpagedef
  set pageId := st.arena.length with hpageIddef
  set a0 := st.arena ++ [page] with ha0def
  have hparne : parentId ≠ pageId := Nat.ne_of_lt hpar
  have holdne : oldId ≠ pageId := Nat.ne_of_lt holdlt
  have hGetPar0 : getNode a0 parentId = getNode st.arena parentId :=
    getNode_append_lt _ _ _ hpar
  have hpage0 : getNode a0 pageId = page := getNode_append_self _ _
  have hsubpage : page.subPages = [] := by
    rw [hpagedef]
    rfl
  have hl0 : odLookup (getNode a0 parentId).subPages page.name = some oldId := by
    rw [hGetPar0]
    exact hl
  have hGetOld0 : getNode a0 oldId = getNode st.arena oldId :=
    getNode_append_lt _ _ _ holdlt
  have hv0 : (getNode a0 oldId).virtual = true := by
    rw [hGetOld0]
    exact hv
  have hsubs0 : (getNode a0 oldId).subPages = (getNode st.arena oldId).subPages := by
    rw [hGetOld0]
  have hvals : ∀ kv ∈ (getNode a0 oldId).subPages, kv.2 ≠ pageId := by
    intro kv hkv
    rw [hsubs0] at hkv
    exact Nat.ne_of_lt (hsubslt kv hkv)
  have hpagelt0 : pageId < a0.length := by
    rw [ha0def, List.length_append]
    exact Nat.lt_succ_self _
  have hRSpage : getNode (reparentSubs a0 pageId (getNode a0 oldId).subPages) pageId
      = { page with subPages := odUpdate page.subPages (getNode a0 oldId).subPages } := by
    rw [getNode_reparentSubs_self _ _ _ hpagelt0 hvals, hpage0]
  rw [resolveConflict_virtual _ _ _ _ _ _ hl0 hv0]
  rw [dispatchStatus_pub_default _ _ _ _ _ _ _ hps hd]
  refine ⟨?_, ?_, ?_, ?_, ?_⟩
  · rw [getNode_modNode_self _ _ _ (by
      rw [length_modNode, length_modNode, reparentSubs_length, ha0def,
        List.length_append]
      exact Nat.lt_succ_of_lt hpar)]
    exact odLookup_odSet_self _ _ _
  · rw [getNode_modNode_other _ _ _ _ hparne]
    rw [getNode_modNode_self _ _ _ (by
      rw [length_modNode, reparentSubs_length]
      exact hpagelt0)]
    show (getNode (modNode (reparentSubs a0 pageId (getNode a0 oldId).subPages)
        parentId (fun n => { n with subPages := odDel n.subPages page.name }))
        pageId).virtual = false
    rw [getNode_modNode_other _ _ _ _ hparne]
    rw [getNode_reparentSubs_proj Node.virtual _ _ _ _ (fun n sp => rfl)
      (fun n q => rfl)]
    rw [hpage0, hpagedef]
    rfl
  · exact List.mem_append_right _ (List.mem_singleton.mpr rfl)
  · intro hmem
    rcases List.mem_append.mp hmem with h1 | h2
    · exact not_mem_listRemove_of_nodup _ _ hpnd h1
    · exact holdne (List.mem_singleton.mp h2)
  · intro kv hkv
    have hkv0 : kv ∈ (getNode a0 oldId).subPages := by
      rw [hsubs0]
      exact hkv
    constructor
    · rw [getNode_modNode_other _ _ _ _ hparne]
      rw [getNode_modNode_self _ _ _ (by
        rw [length_modNode, reparentSubs_length]
        exact hpagelt0)]
      show odLookup (getNode (modNode (reparentSubs a0 pageId
          (getNode a0 oldId).subPages) parentId
          (fun n => { n with subPages := odDel n.subPages page.name }))
          pageId).subPages kv.1 = some kv.2
      rw [getNode_modNode_other _ _ _ _ hparne]
      rw [hRSpage, hsubpage]
      show odLookup (odUpdate [] (getNode a0 oldId).subPages) kv.1 = some kv.2
      refine odLookup_odUpdate_mem _ _ _ _ hkv0 ?_
      rw [hsubs0]
      exact hsubsnd
    · rw [getNode_modNode_proj Node.parent _ parentId
        (fun n => { n with subPages := odSet n.subPages page.name pageId }) kv.2
        (fun n => rfl)]
      rw [getNode_modNode_other _ _ _ _ (fun he => hvals kv hkv0 he.symm)]
      rw [getNode_modNode_proj Node.parent _ parentId
        (fun n => { n with subPages := odDel n.subPages page.name }) kv.2
        (fun n => rfl)]
      refine reparentSubs_parent_of_mem _ _ _ _ (hvals kv hkv0) ?_ ⟨kv, hkv0, rfl⟩
      rw [ha0def, List.length_append]
      exact Nat.lt_succ_of_lt (hsubslt kv hkv)

/-- The scan of a directory holding only `foo/` with `bar.md` inside:
the state just before `foo.md` is processed. -/
def dirOnlyScanC3 : ScanAcc :=
  generateContext enSettings [Entry.dir "foo" [Entry.file "bar.md" pubFile]]

/-- Witness for the virtual replacement: processing `foo.md` against the
state scanned from `foo/` re-slots `foo` to the new node 3, drops the
virtual node 1 from the page list, and keeps `bar` reachable below the
real node. -/
theorem c3_virtual_replaced_by_real_witness :
    odLookup (getNode (processFile enSettings 0 "foo.md" pubFile dirOnlyScanC3).arena
        0).subPages (mkFilePage enSettings (splitExtBase "foo.md") pubFile).name
      = some dirOnlyScanC3.arena.length ∧
    1 ∉ (processFile enSettings 0 "foo.md" pubFile dirOnlyScanC3).pages ∧
    odLookup (getNode (processFile enSettings 0 "foo.md" pubFile dirOnlyScanC3).arena
        dirOnlyScanC3.arena.length).subPages "bar" = some 2 :=
  have h := c3_virtual_replaced_by_real enSettings 0 "foo.md" pubFile dirOnlyScanC3 1
    rfl rfl rfl rfl (by decide) (by decide) (by decide) (by decide) (by decide)
    (by decide) (by decide) (by decide)
  ⟨h.1.1, h.1.2.2.2.1, (h.1.2.2.2.2 ("bar", 2) (by decide)).1⟩

/-! ## C9: a non-published file still evicts a virtual placeholder -/

theorem dispatchStatus_not_pub (parentId pageId : Nat) (page : Node)
    (a1 : List Node) (pages1 hidden : List Nat) (warns : Nat)
    (h1 : page.status ≠ "published") :
    (dispatchStatus parentId pageId page a1 pages1 hidden warns).arena = a1 ∧
    ((dispatchStatus parentId pageId page a1 pages1 hidden warns).pages = pages1 ∨
      (dispatchStatus parentId pageId page a1 pages1 hidden warns).pages
        = pages1 ++ [pageId]) := by
  rw [dispatchStatus, if_neg h1]
  by_cases h2 : page.status = "hidden"
  · simp [h2]
  · by_cases h3 : page.status = "draft" <;> simp [h2, h3]

/-- C9 (implicit): when a validly read file shares its name with a
virtual child of the parent but its status is not `published` (hidden,
draft or unknown), the conflict-resolution step still evicts the virtual
child — its children are re-parented onto the new page and it leaves the
parent's mapping and the page list — yet the new page itself is never
inserted into the parent's mapping and keeps no parent link, so the
whole former subtree is unreachable from the tree. -/
theorem c9_nonpublished_virtual_conflict (s : Settings) (parentId : Nat)
    (fname : String) (info : FileInfo) (st : ScanAcc) (oldId : Nat)
    (hinc : info.included = true) (hok : info.readOk = true) (hval : info.valid = true)
    (hstat : info.status ≠ "published")
    (hpar : parentId < st.arena.length)
    (hl : odLookup (getNode st.arena parentId).subPages
        (mkFilePage s (splitExtBase fname) info).name = some oldId)
    (hv : (getNode st.arena oldId).virtual = true)
    (holdlt : oldId < st.arena.length)
    (hsubslt : ∀ kv ∈ (getNode st.arena oldId).subPages, kv.2 < st.arena.length)
    (hpnd : st.pages.Nodup)
    (hparnd : (((getNode st.arena parentId).subPages).map Prod.fst).Nodup)
    (hparvals : ∀ kv ∈ (getNode st.arena parentId).subPages, kv.2 < st.arena.length) :
    odLookup (getNode (processFile s parentId fname info st).arena parentId).subPages
        (mkFilePage s (splitExtBase fname) info).name = none ∧
    oldId ∉ (processFile s parentId fname info st).pages ∧
    (∀ k, odLookup (getNode (processFile s parentId fname info st).arena
        parentId).subPages k ≠ some st.arena.length) ∧
    (getNode (processFile s parentId fname info st).arena st.arena.length).parent
        = none ∧
    ∀ kv ∈ (getNode st.arena oldId).subPages,
      (getNode (processFile s parentId fname info st).arena kv.2).parent
          = some st.arena.length := by
  rw [processFile_valid s parentId fname info st hinc hok hval]
  set page := mkFilePage s (splitExtBase fname) info with hpagedef
  set pageId := st.arena.length with hpageIddef
  set a0 := st.arena ++ [page] with ha0def
  have hps : page.status ≠ "published" := by
    rw [hpagedef]
    simpa [mkFilePage] using hstat
  have hparne : parentId ≠ pageId := Nat.ne_of_lt hpar
  have holdne : oldId ≠ pageId := Nat.ne_of_lt holdlt
  have hGetPar0 : getNode a0 parentId = getNode st.arena parentId :=
    getNode_append_lt _ _ _ hpar
  have hpage0 : getNode a0 pageId = page := getNode_append_self _ _
  have hl0 : odLookup (getNode a0 parentId).subPages page.name = some oldId := by
    rw [hGetPar0]
    exact hl
  have hGetOld0 : getNode a0 oldId = getNode st.arena oldId :=
    getNode_append_lt _ _ _ holdlt
  have hv0 : (getNode a0 oldId).virtual = true := by
    rw [hGetOld0]
    exact hv
  have hsubs0 : (getNode a0 oldId).subPages = (getNode st.arena oldId).subPages := by
    rw [hGetOld0]
  have hvals : ∀ kv ∈ (getNode a0 oldId).subPages, kv.2 ≠ pageId := by
    intro kv hkv
    rw [hsubs0] at hkv
    exact Nat.ne_of_lt (hsubslt kv hkv)
  have hpagelt0 : pageId < a0.length := by
    rw [ha0def, List.length_append]
    exact Nat.lt_succ_self _
  have hRSpage : getNode (reparentSubs a0 pageId (getNode a0 oldId).subPages) pageId
      = { page with subPages := odUpdate page.subPages (getNode a0 oldId).subPages } := by
    rw [getNode_reparentSubs_self _ _ _ hpagelt0 hvals, hpage0]
  rw [resolveConflict_virtual _ _ _ _ _ _ hl0 hv0]
  obtain ⟨harena, hpages⟩ := dispatchStatus_not_pub parentId pageId page
    (modNode (reparentSubs a0 pageId (getNode a0 oldId).subPages) parentId
      (fun n => { n with subPages := odDel n.subPages page.name }),
     listRemove st.pages oldId).1
    (modNode (reparentSubs a0 pageId (getNode a0 oldId).subPages) parentId
      (fun n => { n with subPages := odDel n.subPages page.name }),
     listRemove st.pages oldId).2
    st.hidden st.warns hps
  rw [harena]
  have hmap : (getNode (modNode (reparentSubs a0 pageId (getNode a0 oldId).subPages)
      parentId (fun n => { n with subPages := odDel n.subPages page.name }))
      parentId).subPages
      = odDel (getNode st.arena parentId).subPages page.name := by
    rw [getNode_modNode_self _ _ _ (by
      rw [reparentSubs_length, ha0def, List.length_append]
      exact Nat.lt_succ_of_lt hpar)]
    show odDel (getNode (reparentSubs a0 pageId (getNode a0 oldId).subPages)
        parentId).subPages page.name = _
    rw [reparentSubs_subPages_other _ _ _ _ hparne, hGetPar0]
  refine ⟨?_, ?_, ?_, ?_, ?_⟩
  · rw [hmap]
    exact odLookup_odDel_self _ _ hparnd
  · rcases hpages with hp | hp <;> rw [hp]
    · exact not_mem_listRemove_of_nodup _ _ hpnd
    · intro hmem
      rcases List.mem_append.mp hmem with h1 | h2
      · exact not_mem_listRemove_of_nodup _ _ hpnd h1
      · exact holdne (List.mem_singleton.mp h2)
  · intro k hk
    rw [hmap] at hk
    have hmem := mem_odDel (odLookup_mem hk)
    exact absurd (hparvals _ hmem) (Nat.lt_irrefl _)
  · rw [getNode_modNode_other _ _ _ _ hparne, hRSpage, hpagedef]
    rfl
  · intro kv hkv
    have hkv0 : kv ∈ (getNode a0 oldId).subPages := by
      rw [hsubs0]
      exact hkv
    rw [getNode_modNode_proj Node.parent _ parentId
      (fun n => { n with subPages := odDel n.subPages page.name }) kv.2
      (fun n => rfl)]
    refine reparentSubs_parent_of_mem _ _ _ _ (hvals kv hkv0) ?_ ⟨kv, hkv0, rfl⟩
    rw [ha0def, List.length_append]
    exact Nat.lt_succ_of_lt (hsubslt kv hkv)

/-- Witness for the eviction by a non-published file: processing a
hidden `foo.md` against the state scanned from `foo/` leaves no `foo`
entry under the root, removes the virtual node 1 from the page list,
never links node 3, and re-parents `bar` onto the unreachable node 3. -/
theorem c9_nonpublished_virtual_conflict_witness :
    odLookup (getNode (processFile enSettings 0 "foo.md" hiddenFile
          dirOnlyScanC3).arena 0).subPages
        (mkFilePage enSettings (splitExtBase "foo.md") hiddenFile).name = none ∧
    1 ∉ (processFile enSettings 0 "foo.md" hiddenFile dirOnlyScanC3).pages ∧
    (getNode (processFile enSettings 0 "foo.md" hiddenFile dirOnlyScanC3).arena
        dirOnlyScanC3.arena.length).parent = none ∧
    (getNode (processFile enSettings 0 "foo.md" hiddenFile dirOnlyScanC3).arena
        2).parent = some dirOnlyScanC3.arena.length :=
  have h := c9_nonpublished_virtual_conflict enSettings 0 "foo.md" hiddenFile
    dirOnlyScanC3 1 rfl rfl rfl (by decide) (by decide) (by decide) (by decide)
    (by decide) (by decide) (by decide) (by decide) (by decide)
  ⟨h.1, h.2.1, h.2.2.2.1, (h.2.2.2.2 ("bar", 2) (by decide))⟩

/-! ## C7: unknown status values -/

theorem mem_listRemove {l : List Nat} {x y : Nat} (h : x ∈ listRemove l y) : x ∈ l := by
  induction l with
  | nil => exact absurd h (List.not_mem_nil x)
  | cons z rest ih =>
    rw [listRemove] at h
    split at h
    · exact List.mem_cons_of_mem _ h
    · rcases List.mem_cons.mp h with h1 | h2
      · exact h1 ▸ List.mem_cons_self _ _
      · exact List.mem_cons_of_mem _ (ih h2)

/-- Whatever the conflict resolution does, the per-call page list only
loses entries and the parent's mapping is either untouched or loses the
entry for the new name. -/
theorem resolveConflict_shape (a0 : List Node) (parentId pageId : Nat) (page : Node)
    (pages : List Nat) (hparne : parentId ≠ pageId) (hpar : parentId < a0.length) :
    ((resolveConflict a0 parentId pageId page pages).2 = pages ∨
      ∃ oldId, (resolveConflict a0 parentId pageId page pages).2
        = listRemove pages oldId) ∧
    ((getNode (resolveConflict a0 parentId pageId page pages).1 parentId).subPages
        = (getNode a0 parentId).subPages ∨
      (getNode (resolveConflict a0 parentId pageId page pages).1 parentId).subPages
        = odDel (getNode a0 parentId).subPages page.name) := by
  cases hlk : odLookup (getNode a0 parentId).subPages page.name with
  | none =>
    rw [resolveConflict_none _ _ _ _ _ hlk]
    exact ⟨Or.inl rfl, Or.inl rfl⟩
  | some oldId =>
    have hdel : (getNode (modNode (reparentSubs a0 pageId (getNode a0 oldId).subPages)
        parentId (fun n => { n with subPages := odDel n.subPages page.name }))
        parentId).subPages = odDel (getNode a0 parentId).subPages page.name := by
      rw [getNode_modNode_self _ _ _ (by rw [reparentSubs_length]; exact hpar)]
      show odDel (getNode (reparentSubs a0 pageId (getNode a0 oldId).subPages)
          parentId).subPages page.name = _
      rw [reparentSubs_subPages_other _ _ _ _ hparne]
    by_cases hv : (getNode a0 oldId).virtual = true
    · rw [resolveConflict_virtual _ _ _ _ _ _ hlk hv]
      exact ⟨Or.inr ⟨oldId, rfl⟩, Or.inr hdel⟩
    · have hv2 : (getNode a0 oldId).virtual = false := by
        cases h : (getNode a0 oldId).virtual
        · rfl
        · exact absurd h hv
      by_cases hd : page.inDefaultLang = true
      · rw [resolveConflict_defLang _ _ _ _ _ _ hlk hv2 hd]
        exact ⟨Or.inl rfl, Or.inr hdel⟩
      · have hd2 : page.inDefaultLang = false := by
          cases h : page.inDefaultLang
          · rfl
          · exact absurd h hd
        rw [resolveConflict_keep _ _ _ _ _ _ hlk hv2 hd2]
        exact ⟨Or.inl rfl, Or.inl rfl⟩

/-- The scan of a directory holding two files whose status resolves to
the unknown value `bogus`. -/
def bogusScanC7 : ScanAcc :=
  generateContext enSettings
    [Entry.file "a.md" bogusFile, Entry.file "b.md" bogusFile]

/-- C7: a validly read file whose status is neither `published`,
`hidden` nor `draft` is logged as a warning and lands in neither result
list nor in the parent's child mapping; in particular two `bogus` files
yield two warnings, an empty page list and an empty hidden list. -/
theorem c7_unknown_status_dropped (s : Settings) (parentId : Nat) (fname : String)
    (info : FileInfo) (st : ScanAcc)
    (hinc : info.included = true) (hok : info.readOk = true) (hval : info.valid = true)
    (h1 : info.status ≠ "published") (h2 : info.status ≠ "hidden")
    (h3 : info.status ≠ "draft")
    (hpar : parentId < st.arena.length)
    (hfreshp : st.arena.length ∉ st.pages) (hfreshh : st.arena.length ∉ st.hidden)
    (hparvals : ∀ kv ∈ (getNode st.arena parentId).subPages, kv.2 < st.arena.length) :
    ((processFile s parentId fname info st).warns = st.warns + 1 ∧
      st.arena.length ∉ (processFile s parentId fname info st).pages ∧
      st.arena.length ∉ (processFile s parentId fname info st).hidden ∧
      ∀ k, odLookup (getNode (processFile s parentId fname info st).arena
          parentId).subPages k ≠ some st.arena.length) ∧
    (bogusScanC7.pages = [] ∧ bogusScanC7.hidden = [] ∧ bogusScanC7.warns = 2) := by
  refine ⟨?_, by decide, by decide, by decide⟩
  rw [processFile_valid s parentId fname info st hinc hok hval]
  set page := mkFilePage s (splitExtBase fname) info with hpagedef
  set pageId := st.arena.length with hpageIddef
  set a0 := st.arena ++ [page] with ha0def
  have hps1 : page.status ≠ "published" := by
    rw [hpagedef]
    simpa [mkFilePage] using h1
  have hps2 : page.status ≠ "hidden" := by
    rw [hpagedef]
    simpa [mkFilePage] using h2
  have hps3 : page.status ≠ "draft" := by
    rw [hpagedef]
    simpa [mkFilePage] using h3
  have hparne : parentId ≠ pageId := Nat.ne_of_lt hpar
  have hparlt0 : parentId < a0.length := by
    rw [ha0def, List.length_append]
    exact Nat.lt_succ_of_lt hpar
  have hGetPar0 : getNode a0 parentId = getNode st.arena parentId :=
    getNode_append_lt _ _ _ hpar
  obtain ⟨hpages, hmap⟩ := resolveConflict_shape a0 parentId pageId page st.pages
    hparne hparlt0
  rw [dispatchStatus_unknown _ _ _ _ _ _ _ hps1 hps2 hps3]
  refine ⟨rfl, ?_, hfreshh, ?_⟩
  · rcases hpages with hp | ⟨oldId, hp⟩ <;> rw [hp]
    · exact hfreshp
    · exact fun hmem => hfreshp (mem_listRemove hmem)
  · intro k hk
    rcases hmap with hm | hm <;> rw [hm, hGetPar0] at hk
    · exact absurd (hparvals _ (odLookup_mem hk)) (Nat.lt_irrefl _)
    · exact absurd (hparvals _ (mem_odDel (odLookup_mem hk))) (Nat.lt_irrefl _)

/-- Witness for the unknown-status dispatch: processing `a.md` with
status `bogus` under the fresh root records one warning and leaves both
lists empty. -/
theorem c7_unknown_status_dropped_witness :
    (processFile enSettings 0 "a.md" bogusFile
        { arena := [rootNode enSettings], pages := [], hidden := [], warns := 0 }).warns
      = 0 + 1 ∧
    1 ∉ (processFile enSettings 0 "a.md" bogusFile
        { arena := [rootNode enSettings], pages := [], hidden := [], warns := 0 }).pages ∧
    1 ∉ (processFile enSettings 0 "a.md" bogusFile
        { arena := [rootNode enSettings], pages := [], hidden := [], warns := 0 }).hidden :=
  have h := c7_unknown_status_dropped enSettings 0 "a.md" bogusFile
    { arena := [rootNode enSettings], pages := [], hidden := [], warns := 0 }
    rfl rfl rfl (by decide) (by decide) (by decide) (by decide) (by decide)
    (by decide) (by decide)
  ⟨h.1.1, h.1.2.1, h.1.2.2.1⟩

/-! ## C10: hidden and draft pages keep their absent parent link -/

theorem ancestorsAux_none (a : List Node) (fuel : Nat) :
    ancestorsAux a fuel none = [] := by
  cases fuel <;> rfl

/-- C10 (implicit): the scanner sets a file page's parent link only in
the `published` branch, so a hidden or draft page keeps the `None`
parent it was constructed with by the reader; its ancestor walk is
empty, its depth is 0, its breadcrumbs are empty and the `hierarchy`
path of `url_format` is the page's own name alone. -/
theorem c10_hidden_draft_parentless (s : Settings) (parentId : Nat) (fname : String)
    (info : FileInfo) (st : ScanAcc)
    (hinc : info.included = true) (hok : info.readOk = true) (hval : info.valid = true)
    (hstat : info.status = "hidden" ∨ info.status = "draft")
    (hpar : parentId < st.arena.length)
    (hclosed : ∀ oldId, odLookup (getNode st.arena parentId).subPages
        (mkFilePage s (splitExtBase fname) info).name = some oldId →
        ∀ kv ∈ (getNode st.arena oldId).subPages, kv.2 < st.arena.length) :
    (getNode (processFile s parentId fname info st).arena st.arena.length).parent
        = none ∧
    ancestors (processFile s parentId fname info st).arena st.arena.length = [] ∧
    level (processFile s parentId fname info st).arena st.arena.length = 0 ∧
    breadcrumps (processFile s parentId fname info st).arena st.arena.length = [] ∧
    hierPath (processFile s parentId fname info st).arena st.arena.length
        = (mkFilePage s (splitExtBase fname) info).name := by
  rw [processFile_valid s parentId fname info st hinc hok hval]
  set page := mkFilePage s (splitExtBase fname) info with hpagedef
  set pageId := st.arena.length with hpageIddef
  set a0 := st.arena ++ [page] with ha0def
  have hparne : parentId ≠ pageId := Nat.ne_of_lt hpar
  have hpage0 : getNode a0 pageId = page := getNode_append_self _ _
  have hpagelt0 : pageId < a0.length := by
    rw [ha0def, List.length_append]
    exact Nat.lt_succ_self _
  have hGetPar0 : getNode a0 parentId = getNode st.arena parentId :=
    getNode_append_lt _ _ _ hpar
  have hnode : getNode (resolveConflict a0 parentId pageId page st.pages).1 pageId
      = getNode a0 pageId ∨
      (getNode (resolveConflict a0 parentId pageId page st.pages).1 pageId).parent
        = (getNode a0 pageId).parent ∧
      (getNode (resolveConflict a0 parentId pageId page st.pages).1 pageId).name
        = (getNode a0 pageId).name := by
    cases hlk : odLookup (getNode a0 parentId).subPages page.name with
    | none =>
      rw [resolveConflict_none _ _ _ _ _ hlk]
      exact Or.inl rfl
    | some oldId =>
      have hvals : ∀ kv ∈ (getNode a0 oldId).subPages, kv.2 ≠ pageId := by
        intro kv hkv
        have hl' : odLookup (getNode st.arena parentId).subPages page.name
            = some oldId := by
          rw [← hGetPar0]
          exact hlk
        by_cases holdlt : oldId < st.arena.length
        · have hsub : (getNode a0 oldId).subPages
              = (getNode st.arena oldId).subPages := by
            rw [getNode_append_lt _ _ _ holdlt]
          rw [hsub] at hkv
          exact Nat.ne_of_lt (hclosed oldId hl' kv hkv)
        · by_cases he : oldId = pageId
          · rw [he, hpage0, hpagedef] at hkv
            simp [mkFilePage] at hkv
          · have he2 : ¬ oldId = st.arena.length := he
            have : getNode a0 oldId = defNode := by
              rw [getNode_eq_get?]
              have hnone : a0.get? oldId = none := by
                rw [List.get?_eq_none, ha0def, List.length_append,
                  List.length_singleton]
                omega
              rw [hnone]
              rfl
            rw [this] at hkv
            simp [defNode] at hkv
      have hself : getNode (reparentSubs a0 pageId (getNode a0 oldId).subPages) pageId
          = { getNode a0 pageId with
              subPages := odUpdate (getNode a0 pageId).subPages
                (getNode a0 oldId).subPages } :=
        getNode_reparentSubs_self _ _ _ hpagelt0 hvals
      by_cases hv : (getNode a0 oldId).virtual = true
      · rw [resolveConflict_virtual _ _ _ _ _ _ hlk hv]
        refine Or.inr ⟨?_, ?_⟩ <;>
          rw [getNode_modNode_other _ _ _ _ hparne, hself]
      · have hv2 : (getNode a0 oldId).virtual = false := by
          cases h : (getNode a0 oldId).virtual
          · rfl
          · exact absurd h hv
        by_cases hd : page.inDefaultLang = true
        · rw [resolveConflict_defLang _ _ _ _ _ _ hlk hv2 hd]
          refine Or.inr ⟨?_, ?_⟩ <;>
            rw [getNode_modNode_other _ _ _ _ hparne, hself]
        · have hd2 : page.inDefaultLang = false := by
            cases h : page.inDefaultLang
            · rfl
            · exact absurd h hd
          rw [resolveConflict_keep _ _ _ _ _ _ hlk hv2 hd2]
          exact Or.inl rfl
  have hps : page.status = info.status := rfl
  have harena : (dispatchStatus parentId pageId page
      (resolveConflict a0 parentId pageId page st.pages).1
      (resolveConflict a0 parentId pageId page st.pages).2 st.hidden st.warns).arena
      = (resolveConflict a0 parentId pageId page st.pages).1 := by
    rcases hstat with hh | hh
    · rw [dispatchStatus_hidden _ _ _ _ _ _ _ (hps.trans hh)]
    · rw [dispatchStatus_draft _ _ _ _ _ _ _ (hps.trans hh)]
  rw [harena]
  have hparentnone : (getNode (resolveConflict a0 parentId pageId page st.pages).1
      pageId).parent = none := by
    rcases hnode with hn | ⟨hn, _⟩
    · rw [hn, hpage0, hpagedef]
      rfl
    · rw [hn, hpage0, hpagedef]
      rfl
  have hname : (getNode (resolveConflict a0 parentId pageId page st.pages).1
      pageId).name = page.name := by
    rcases hnode with hn | ⟨_, hn⟩
    · rw [hn, hpage0]
    · rw [hn, hpage0]
  have hanc : ancestors (resolveConflict a0 parentId pageId page st.pages).1 pageId
      = [] := by
    rw [ancestors, hparentnone, ancestorsAux_none]
  refine ⟨hparentnone, hanc, ?_, ?_, ?_⟩
  · rw [level, hanc]
    rfl
  · rw [breadcrumps, properAncestors, hanc]
    rfl
  · rw [hierPath, properAncestors, hanc]
    show String.intercalate "/"
        [(getNode (resolveConflict a0 parentId pageId page st.pages).1 pageId).name]
        = page.name
    rw [hname]
    rfl

/-- Witness: a hidden `foo.md` processed under the fresh root keeps no
parent link, has an empty ancestor walk, depth 0, no breadcrumbs, and
its hierarchy path is its own name. -/
theorem c10_hidden_draft_parentless_witness :
    (getNode (processFile enSettings 0 "foo.md" hiddenFile
        { arena := [rootNode enSettings], pages := [], hidden := [], warns := 0 }).arena
        1).parent = none ∧
    level (processFile enSettings 0 "foo.md" hiddenFile
        { arena := [rootNode enSettings], pages := [], hidden := [], warns := 0 }).arena
        1 = 0 ∧
    hierPath (processFile enSettings 0 "foo.md" hiddenFile
        { arena := [rootNode enSettings], pages := [], hidden := [], warns := 0 }).arena
        1 = "foo" :=
  have h := c10_hidden_draft_parentless enSettings 0 "foo.md" hiddenFile
    { arena := [rootNode enSettings], pages := [], hidden := [], warns := 0 }
    rfl rfl rfl (Or.inl rfl) (by decide)
    (by
      intro oldId hold
      have : odLookup (getNode [rootNode enSettings] 0).subPages
          (mkFilePage enSettings (splitExtBase "foo.md") hiddenFile).name = none := by
        decide
      rw [this] at hold
      exact Option.noConfusion hold)
  ⟨h.1, h.2.2.1, h.2.2.2.2⟩

/-! ## C4: the translation back-fill -/

theorem findOrig_mem {a : List Node} {pagesL : List Nat} {nm : String} {o : Nat}
    (h : findOrig a pagesL nm = some o) : o ∈ pagesL := by
  induction pagesL with
  | nil => exact absurd h (by rw [findOrig]; exact Option.noConfusion)
  | cons p rest ih =>
    rw [findOrig] at h
    split at h
    · cases h
      exact List.mem_cons_self _ _
    · exact List.mem_cons_of_mem _ (ih h)

theorem findOrig_congr (a a2 : List Node) (pagesL : List Nat) (nm : String)
    (hn : ∀ p ∈ pagesL, (getNode a2 p).name = (getNode a p).name) :
    findOrig a2 pagesL nm = findOrig a pagesL nm := by
  induction pagesL with
  | nil => rfl
  | cons p rest ih =>
    rw [findOrig, findOrig, hn p (List.mem_cons_self _ _)]
    split
    · rfl
    · exact ih (fun p' hp' => hn p' (List.mem_cons_of_mem _ hp'))

/-- The linear search returns the unique page carrying the name. -/
theorem findOrig_unique (a : List Node) (pagesL : List Nat) (nm : String) (o : Nat)
    (hmem : o ∈ pagesL) (hname : (getNode a o).name = nm)
    (huniq : ∀ p ∈ pagesL, (getNode a p).name = nm → p = o) :
    findOrig a pagesL nm = some o := by
  induction pagesL with
  | nil => exact absurd hmem (List.not_mem_nil o)
  | cons p rest ih =>
    rw [findOrig]
    split
    · rename_i hp
      rw [huniq p (List.mem_cons_self _ _) hp]
    · rename_i hp
      rcases List.mem_cons.mp hmem with h1 | h2
      · exact absurd (h1 ▸ hname) hp
      · exact ih h2 (fun p' hp' => huniq p' (List.mem_cons_of_mem _ hp'))

/-- Running the back-fill over translations that all have an original
succeeds, does not touch any node outside the translation list, and
never changes a name. -/
theorem backfill_total_stable (pagesL : List Nat) (rest : List Nat) (a : List Node)
    (hall : ∀ t ∈ rest, (findOrig a pagesL (getNode a t).name).isSome) :
    ∃ a2, backfillTranslations a pagesL rest = some a2 ∧
      (∀ j, j ∉ rest → getNode a2 j = getNode a j) ∧
      (∀ j, (getNode a2 j).name = (getNode a j).name) := by
  induction rest generalizing a with
  | nil => exact ⟨a, rfl, fun j _ => rfl, fun j => rfl⟩
  | cons t rest2 ih =>
    obtain ⟨o1, ho1⟩ := Option.isSome_iff_exists.mp
      (hall t (List.mem_cons_self _ _))
    have hname1 : ∀ j, (getNode (modNode a t (fun n =>
        { n with subPages := odUpdate n.subPages (getNode a o1).subPages })) j).name
        = (getNode a j).name := fun j =>
      getNode_modNode_proj Node.name _ _ _ _ (fun n => rfl)
    have hall2 : ∀ t' ∈ rest2, (findOrig (modNode a t (fun n =>
        { n with subPages := odUpdate n.subPages (getNode a o1).subPages })) pagesL
        (getNode (modNode a t (fun n =>
          { n with subPages := odUpdate n.subPages (getNode a o1).subPages }))
          t').name).isSome := by
      intro t' ht'
      rw [hname1 t', findOrig_congr _ _ _ _ (fun p _ => hname1 p)]
      exact hall t' (List.mem_cons_of_mem _ ht')
    obtain ⟨a2, heq, hstable, hnames⟩ := ih _ hall2
    refine ⟨a2, ?_, ?_, ?_⟩
    · rw [backfillTranslations, ho1]
      exact heq
    · intro j hj
      have hj2 : j ∉ rest2 := fun hh => hj (List.mem_cons_of_mem _ hh)
      have hjt : t ≠ j := fun hh => hj (hh ▸ List.mem_cons_self _ _)
      rw [hstable j hj2, getNode_modNode_other _ _ _ _ hjt]
    · intro j
      rw [hnames j, hname1 j]

/-- C4: after the back-fill post-pass, a translated page whose slot was
taken by the unique same-named default-language page has its own
`sub_pages` updated with that page's current child mapping, so the
translated node exposes the same children. -/
theorem c4_translation_backfill (a : List Node) (pagesL transL : List Nat)
    (tid o : Nat)
    (hmem : tid ∈ transL) (hnodupT : transL.Nodup)
    (hdisj : ∀ t ∈ transL, t ∉ pagesL)
    (hall : ∀ t ∈ transL, (findOrig a pagesL (getNode a t).name).isSome)
    (homem : o ∈ pagesL)
    (honame : (getNode a o).name = (getNode a tid).name)
    (houniq : ∀ p ∈ pagesL, (getNode a p).name = (getNode a tid).name → p = o)
    (htlt : tid < a.length)
    (hnodupO : (((getNode a o).subPages).map Prod.fst).Nodup) :
    ∃ a2, backfillTranslations a pagesL transL = some a2 ∧
      (getNode a2 tid).subPages
        = odUpdate (getNode a tid).subPages (getNode a o).subPages ∧
      ∀ kv ∈ (getNode a o).subPages,
        odLookup (getNode a2 tid).subPages kv.1 = some kv.2 := by
  induction transL generalizing a with
  | nil => exact absurd hmem (List.not_mem_nil tid)
  | cons t rest ih =>
    rw [List.nodup_cons] at hnodupT
    have hto : t ≠ o := fun hh => hdisj t (List.mem_cons_self _ _) (hh ▸ homem)
    rcases List.mem_cons.mp hmem with h1 | h2
    · subst h1
      have ho1 : findOrig a pagesL (getNode a tid).name = some o :=
        findOrig_unique a pagesL _ o homem honame houniq
      have hname1 : ∀ j, (getNode (modNode a tid (fun n =>
          { n with subPages := odUpdate n.subPages (getNode a o).subPages })) j).name
          = (getNode a j).name := fun j =>
        getNode_modNode_proj Node.name _ _ _ _ (fun n => rfl)
      have hall2 : ∀ t' ∈ rest, (findOrig (modNode a tid (fun n =>
          { n with subPages := odUpdate n.subPages (getNode a o).subPages })) pagesL
          (getNode (modNode a tid (fun n =>
            { n with subPages := odUpdate n.subPages (getNode a o).subPages }))
            t').name).isSome := by
        intro t' ht'
        rw [hname1 t', findOrig_congr _ _ _ _ (fun p _ => hname1 p)]
        exact hall t' (List.mem_cons_of_mem _ ht')
      obtain ⟨a2, heq, hstable, _⟩ := backfill_total_stable pagesL rest _ hall2
      have hGetTid : getNode a2 tid = getNode (modNode a tid (fun n =>
          { n with subPages := odUpdate n.subPages (getNode a o).subPages })) tid :=
        hstable tid hnodupT.1
      have hself : getNode (modNode a tid (fun n =>
          { n with subPages := odUpdate n.subPages (getNode a o).subPages })) tid
          = { getNode a tid with
              subPages := odUpdate (getNode a tid).subPages (getNode a o).subPages } :=
        getNode_modNode_self _ _ _ htlt
      refine ⟨a2, ?_, ?_, ?_⟩
      · rw [backfillTranslations, ho1]
        exact heq
      · rw [hGetTid, hself]
      · intro kv hkv
        rw [hGetTid, hself]
        exact odLookup_odUpdate_mem _ _ _ _ hkv hnodupO
    · obtain ⟨o1, ho1⟩ := Option.isSome_iff_exists.mp
        (hall t (List.mem_cons_self _ _))
      have htne : t ≠ tid := fun hh => hnodupT.1 (hh ▸ h2)
      have hname1 : ∀ j, (getNode (modNode a t (fun n =>
          { n with subPages := odUpdate n.subPages (getNode a o1).subPages })) j).name
          = (getNode a j).name := fun j =>
        getNode_modNode_proj Node.name _ _ _ _ (fun n => rfl)
      have hGetTid1 : getNode (modNode a t (fun n =>
          { n with subPages := odUpdate n.subPages (getNode a o1).subPages })) tid
          = getNode a tid := getNode_modNode_other _ _ _ _ htne
      have hGetO1 : getNode (modNode a t (fun n =>
          { n with subPages := odUpdate n.subPages (getNode a o1).subPages })) o
          = getNode a o := getNode_modNode_other _ _ _ _ hto
      obtain ⟨a2, heq, hsub, hlook⟩ := ih
        (modNode a t (fun n =>
          { n with subPages := odUpdate n.subPages (getNode a o1).subPages }))
        h2 hnodupT.2
        (fun t' ht' => hdisj t' (List.mem_cons_of_mem _ ht'))
        (by
          intro t' ht'
          rw [hname1 t', findOrig_congr _ _ _ _ (fun p _ => hname1 p)]
          exact hall t' (List.mem_cons_of_mem _ ht'))
        (by rw [hGetO1, hGetTid1]; exact honame)
        (by
          intro p hp hnp
          rw [hname1 p, hGetTid1] at hnp
          exact houniq p hp hnp)
        (by rw [length_modNode]; exact htlt)
        (by rw [hGetO1]; exact hnodupO)
      refine ⟨a2, ?_, ?_, ?_⟩
      · rw [backfillTranslations, ho1]
        exact heq
      · rw [hsub, hGetTid1, hGetO1]
      · intro kv hkv
        refine hlook kv ?_
        rw [hGetO1]
        exact hkv

/-- The scan of a directory holding `about/` (with `x.md`),
`about-de.md` and `about.md`. -/
def aboutScanC4 : ScanAcc :=
  generateContext enSettings
    [Entry.dir "about" [Entry.file "x.md" pubFile],
     Entry.file "about-de.md" pubFileDe, Entry.file "about.md" pubFile]

/-- Witness for the back-fill: with the originals `x` (node 2) and
`about` (node 4) and the translation `about-de` (node 3), the post-pass
succeeds and the translated node exposes the same children as the
default-language `about` node. -/
theorem c4_translation_backfill_witness :
    ∃ a2, backfillTranslations aboutScanC4.arena [2, 4] [3] = some a2 ∧
      (getNode a2 3).subPages
        = odUpdate (getNode aboutScanC4.arena 3).subPages
            (getNode aboutScanC4.arena 4).subPages ∧
      ∀ kv ∈ (getNode aboutScanC4.arena 4).subPages,
        odLookup (getNode a2 3).subPages kv.1 = some kv.2 :=
  c4_translation_backfill aboutScanC4.arena [2, 4] [3] 3 4
    (by decide) (by decide) (by decide) (by decide) (by decide) (by decide)
    (by decide) (by decide) (by decide)

/-! ## C5: the ancestor walk terminates and measures the depth

Scanner-built arenas carry a rank function that strictly decreases along
parent links (and strictly increases into children), so the `hierarchy`
walk always reaches a parentless node: the fuel bound used by the
embedding never binds. -/

/-- A rank certificate for an arena: every parent link points into the
arena at strictly smaller rank, every child-mapping entry points into
the arena at strictly larger rank, and ranks stay below the arena
size. -/
def ArenaInvD (a : List Node) (d : Nat → Nat) : Prop :=
  ∀ i, i < a.length →
    (∀ j, (getNode a i).parent = some j → j < a.length ∧ d j < d i) ∧
    (∀ kv ∈ (getNode a i).subPages, kv.2 < a.length ∧ d i < d kv.2) ∧
    d i < a.length

/-- An arena with some rank certificate. -/
def ArenaInv (a : List Node) : Prop :=
  ∃ d, ArenaInvD a d

theorem mem_odUpdate {d src : List (String × Nat)} {kv : String × Nat}
    (h : kv ∈ odUpdate d src) : kv ∈ d ∨ kv ∈ src := by
  induction src generalizing d with
  | nil => exact Or.inl h
  | cons kv0 rest ih =>
    have h2 : kv ∈ odUpdate (odSet d kv0.1 kv0.2) rest := h
    rcases ih h2 with h3 | h3
    · rcases mem_odSet h3 with h4 | h4
      · exact Or.inl h4
      · exact Or.inr (h4 ▸ List.mem_cons_self _ _)
    · exact Or.inr (List.mem_cons_of_mem _ h3)

/-- Appending a childless page whose parent link (if any) respects the
chosen rank `v` preserves the certificate. -/
theorem ArenaInvD_pushPage (a : List Node) (d : Nat → Nat) (page : Node) (v : Nat)
    (hd : ArenaInvD a d) (hv : v < a.length + 1)
    (hsubs : page.subPages = [])
    (hparent : ∀ j, page.parent = some j → j < a.length ∧ d j < v) :
    ArenaInvD (a ++ [page]) (fun i => if i = a.length then v else d i) := by
  intro i hi
  beta_reduce
  rw [List.length_append, List.length_singleton] at hi
  by_cases hip : i = a.length
  · subst hip
    rw [getNode_append_self]
    refine ⟨?_, ?_, ?_⟩
    · intro j hj
      obtain ⟨hj1, hj2⟩ := hparent j hj
      rw [if_pos rfl, if_neg (Nat.ne_of_lt hj1)]
      exact ⟨by rw [List.length_append, List.length_singleton]; omega, hj2⟩
    · intro kv hkv
      rw [hsubs] at hkv
      exact absurd hkv (List.not_mem_nil kv)
    · rw [if_pos rfl, List.length_append, List.length_singleton]
      exact hv
  · have hilt : i < a.length := by omega
    obtain ⟨hp, hs, hb⟩ := hd i hilt
    rw [getNode_append_lt _ _ _ hilt]
    refine ⟨?_, ?_, ?_⟩
    · intro j hj
      obtain ⟨hj1, hj2⟩ := hp j hj
      rw [if_neg (Nat.ne_of_lt hj1), if_neg hip]
      exact ⟨by rw [List.length_append, List.length_singleton]; omega, hj2⟩
    · intro kv hkv
      obtain ⟨hk1, hk2⟩ := hs kv hkv
      rw [if_neg (Nat.ne_of_lt hk1), if_neg hip]
      exact ⟨by rw [List.length_append, List.length_singleton]; omega, hk2⟩
    · rw [if_neg hip, List.length_append, List.length_singleton]
      omega

/-- Setting a parent link that descends in rank preserves the
certificate. -/
theorem ArenaInvD_setParent (a : List Node) (d : Nat → Nat) (i p : Nat)
    (hd : ArenaInvD a d) (hi : i < a.length) (hp : p < a.length)
    (hdp : d p < d i) :
    ArenaInvD (modNode a i (fun n => { n with parent := some p })) d := by
  intro j hj
  rw [length_modNode] at hj
  obtain ⟨hjp, hjs, hjb⟩ := hd j hj
  by_cases hij : i = j
  · subst hij
    rw [getNode_modNode_self _ _ _ hi]
    refine ⟨?_, ?_, by rw [length_modNode]; exact hjb⟩
    · intro j' hj'
      cases hj'
      rw [length_modNode]
      exact ⟨hp, hdp⟩
    · intro kv hkv
      obtain ⟨h1, h2⟩ := hjs kv hkv
      rw [length_modNode]
      exact ⟨h1, h2⟩
  · rw [getNode_modNode_other _ _ _ _ hij]
    refine ⟨?_, ?_, by rw [length_modNode]; exact hjb⟩
    · intro j' hj'
      obtain ⟨h1, h2⟩ := hjp j' hj'
      rw [length_modNode]
      exact ⟨h1, h2⟩
    · intro kv hkv
      obtain ⟨h1, h2⟩ := hjs kv hkv
      rw [length_modNode]
      exact ⟨h1, h2⟩

/-- Adding a child-mapping entry that ascends in rank preserves the
certificate. -/
theorem ArenaInvD_setSlot (a : List Node) (d : Nat → Nat) (i : Nat) (k : String)
    (v : Nat) (hd : ArenaInvD a d) (hi : i < a.length) (hv : v < a.length)
    (hdv : d i < d v) :
    ArenaInvD (modNode a i (fun n => { n with subPages := odSet n.subPages k v })) d := by
  intro j hj
  rw [length_modNode] at hj
  obtain ⟨hjp, hjs, hjb⟩ := hd j hj
  by_cases hij : i = j
  · subst hij
    rw [getNode_modNode_self _ _ _ hi]
    refine ⟨?_, ?_, by rw [length_modNode]; exact hjb⟩
    · intro j' hj'
      obtain ⟨h1, h2⟩ := hjp j' hj'
      rw [length_modNode]
      exact ⟨h1, h2⟩
    · intro kv hkv
      rcases mem_odSet hkv with h1 | h1
      · obtain ⟨h2, h3⟩ := hjs kv h1
        rw [length_modNode]
        exact ⟨h2, h3⟩
      · rw [h1, length_modNode]
        exact ⟨hv, hdv⟩
  · rw [getNode_modNode_other _ _ _ _ hij]
    refine ⟨?_, ?_, by rw [length_modNode]; exact hjb⟩
    · intro j' hj'
      obtain ⟨h1, h2⟩ := hjp j' hj'
      rw [length_modNode]
      exact ⟨h1, h2⟩
    · intro kv hkv
      obtain ⟨h1, h2⟩ := hjs kv hkv
      rw [length_modNode]
      exact ⟨h1, h2⟩

/-- Deleting a child-mapping entry preserves the certificate. -/
theorem ArenaInvD_delSlot (a : List Node) (d : Nat → Nat) (i : Nat) (k : String)
    (hd : ArenaInvD a d) :
    ArenaInvD (modNode a i (fun n => { n with subPages := odDel n.subPages k })) d := by
  intro j hj
  rw [length_modNode] at hj
  obtain ⟨hjp, hjs, hjb⟩ := hd j hj
  by_cases hij : i = j
  · subst hij
    by_cases hi : i < a.length
    · rw [getNode_modNode_self _ _ _ hi]
      refine ⟨?_, ?_, by rw [length_modNode]; exact hjb⟩
      · intro j' hj'
        obtain ⟨h1, h2⟩ := hjp j' hj'
        rw [length_modNode]
        exact ⟨h1, h2⟩
      · intro kv hkv
        obtain ⟨h1, h2⟩ := hjs kv (mem_odDel hkv)
        rw [length_modNode]
        exact ⟨h1, h2⟩
    · exact absurd hj hi
  · rw [getNode_modNode_other _ _ _ _ hij]
    refine ⟨?_, ?_, by rw [length_modNode]; exact hjb⟩
    · intro j' hj'
      obtain ⟨h1, h2⟩ := hjp j' hj'
      rw [length_modNode]
      exact ⟨h1, h2⟩
    · intro kv hkv
      obtain ⟨h1, h2⟩ := hjs kv hkv
      rw [length_modNode]
      exact ⟨h1, h2⟩

/-- The re-parenting loop preserves the certificate when the target
sits below every moved child in rank. -/
theorem ArenaInvD_reparent (a : List Node) (d : Nat → Nat) (pid : Nat)
    (subs : List (String × Nat)) (hd : ArenaInvD a d) (hpid : pid < a.length)
    (hsubs : ∀ kv ∈ subs, kv.2 < a.length ∧ d pid < d kv.2) :
    ArenaInvD (reparentSubs a pid subs) d := by
  have hvals : ∀ kv ∈ subs, kv.2 ≠ pid := by
    intro kv hkv he
    exact absurd ((hsubs kv hkv).2) (by rw [he]; exact Nat.lt_irrefl _)
  intro j hj
  rw [reparentSubs_length] at hj
  obtain ⟨hjp, hjs, hjb⟩ := hd j hj
  by_cases hjpid : j = pid
  · subst hjpid
    rw [getNode_reparentSubs_self _ _ _ hpid hvals]
    refine ⟨?_, ?_, by rw [reparentSubs_length]; exact hjb⟩
    · intro j' hj'
      obtain ⟨h1, h2⟩ := hjp j' hj'
      rw [reparentSubs_length]
      exact ⟨h1, h2⟩
    · intro kv hkv
      rcases mem_odUpdate hkv with h1 | h1
      · obtain ⟨h2, h3⟩ := hjs kv h1
        rw [reparentSubs_length]
        exact ⟨h2, h3⟩
      · obtain ⟨h2, h3⟩ := hsubs kv h1
        rw [reparentSubs_length]
        exact ⟨h2, h3⟩
  · by_cases hjc : ∃ kv ∈ subs, kv.2 = j
    · refine ⟨?_, ?_, by rw [reparentSubs_length]; exact hjb⟩
      · intro j' hj'
        rw [reparentSubs_parent_of_mem _ _ _ _ hjpid hj hjc] at hj'
        cases hj'
        rw [reparentSubs_length]
        obtain ⟨kv, hkv, hkvj⟩ := hjc
        exact ⟨hpid, by
          have := (hsubs kv hkv).2
          rw [hkvj] at this
          exact this⟩
      · intro kv hkv
        rw [reparentSubs_subPages_other _ _ _ _ hjpid] at hkv
        obtain ⟨h1, h2⟩ := hjs kv hkv
        rw [reparentSubs_length]
        exact ⟨h1, h2⟩
    · have huntouched : getNode (reparentSubs a pid subs) j = getNode a j := by
        refine getNode_reparentSubs_untouched _ _ _ _ hjpid ?_
        intro kv hkv he
        exact hjc ⟨kv, hkv, he⟩
      rw [huntouched]
      refine ⟨?_, ?_, by rw [reparentSubs_length]; exact hjb⟩
      · intro j' hj'
        obtain ⟨h1, h2⟩ := hjp j' hj'
        rw [reparentSubs_length]
        exact ⟨h1, h2⟩
      · intro kv hkv
        obtain ⟨h1, h2⟩ := hjs kv hkv
        rw [reparentSubs_length]
        exact ⟨h1, h2⟩

/-- The dispatch step leaves the arena alone, only links the parent, or
links the parent and writes the slot. -/
theorem dispatchStatus_arena_shape (parentId pageId : Nat) (page : Node)
    (a1 : List Node) (pages1 hidden : List Nat) (warns : Nat) :
    (dispatchStatus parentId pageId page a1 pages1 hidden warns).arena = a1 ∨
    (dispatchStatus parentId pageId page a1 pages1 hidden warns).arena
      = modNode a1 pageId (fun n => { n with parent := some parentId }) ∨
    (dispatchStatus parentId pageId page a1 pages1 hidden warns).arena
      = modNode (modNode a1 pageId (fun n => { n with parent := some parentId }))
          parentId (fun n => { n with subPages := odSet n.subPages page.name pageId }) := by
  rw [dispatchStatus]
  by_cases h1 : page.status = "published"
  · rw [if_pos h1]
    by_cases h2 : page.inDefaultLang = true
    · simp [h2]
    · simp only [h2, if_false]
      by_cases h3 : (odLookup (getNode (modNode a1 pageId
          (fun n => { n with parent := some parentId })) parentId).subPages
          page.name).isNone = true
      · simp [h3]
      · simp [h3]
  · rw [if_neg h1]
    by_cases h2 : page.status = "hidden"
    · simp [h2]
    · by_cases h3 : page.status = "draft" <;> simp [h2, h3]

/-- Any dispatch outcome preserves the certificate, given the new page
sits above its parent in rank. -/
theorem ArenaInvD_dispatch_any (parentId pageId : Nat) (page : Node)
    (a1 : List Node) (pages1 hidden : List Nat) (warns : Nat) (d0 : Nat → Nat)
    (hd0 : ArenaInvD a1 d0) (hpage : pageId < a1.length) (hpar : parentId < a1.length)
    (hlt : d0 parentId < d0 pageId) :
    ArenaInv (dispatchStatus parentId pageId page a1 pages1 hidden warns).arena ∧
    (dispatchStatus parentId pageId page a1 pages1 hidden warns).arena.length
      = a1.length := by
  rcases dispatchStatus_arena_shape parentId pageId page a1 pages1 hidden warns with
    h | h | h <;> rw [h]
  · exact ⟨⟨d0, hd0⟩, rfl⟩
  · exact ⟨⟨d0, ArenaInvD_setParent _ _ _ _ hd0 hpage hpar hlt⟩, length_modNode _ _ _⟩
  · refine ⟨⟨d0, ArenaInvD_setSlot _ _ _ _ _
      (ArenaInvD_setParent _ _ _ _ hd0 hpage hpar hlt) ?_ ?_ hlt⟩, ?_⟩
    · rw [length_modNode]
      exact hpar
    · rw [length_modNode]
      exact hpage
    · rw [length_modNode, length_modNode]

/-- Processing one file preserves the certificate and never shrinks the
arena. -/
theorem processFile_inv (s : Settings) (parentId : Nat) (fname : String)
    (info : FileInfo) (st : ScanAcc)
    (hpar : parentId < st.arena.length) (hinv : ArenaInv st.arena) :
    ArenaInv (processFile s parentId fname info st).arena ∧
    st.arena.length ≤ (processFile s parentId fname info st).arena.length := by
  obtain ⟨d, hd⟩ := hinv
  cases hI : info.included with
  | false =>
    have he : processFile s parentId fname info st = st := by
      rw [processFile, hI]
      rfl
    rw [he]
    exact ⟨⟨d, hd⟩, Nat.le_refl _⟩
  | true =>
  cases hR : info.readOk with
  | false =>
    have he : processFile s parentId fname info st = { st with warns := st.warns + 1 } := by
      rw [processFile, hI, hR]
      rfl
    rw [he]
    exact ⟨⟨d, hd⟩, Nat.le_refl _⟩
  | true =>
  cases hV : info.valid with
  | false =>
    have he : processFile s parentId fname info st = { st with warns := st.warns + 1 } := by
      rw [processFile, hI, hR, hV]
      rfl
    rw [he]
    exact ⟨⟨d, hd⟩, Nat.le_refl _⟩
  | true =>
  rw [processFile_valid s parentId fname info st hI hR hV]
  set page := mkFilePage s (splitExtBase fname) info with hpagedef
  set pageId := st.arena.length with hpageIddef
  set a0 := st.arena ++ [page] with ha0def
  have hsubpage : page.subPages = [] := by
    rw [hpagedef]
    rfl
  have hparpage : page.parent = none := by
    rw [hpagedef]
    rfl
  have hlen0 : a0.length = st.arena.length + 1 := by
    rw [ha0def, List.length_append, List.length_singleton]
  have hparne : parentId ≠ pageId := Nat.ne_of_lt hpar
  have hparlt0 : parentId < a0.length := by
    rw [hlen0]
    exact Nat.lt_succ_of_lt hpar
  have hpagelt0 : pageId < a0.length := by
    rw [hlen0]
    exact Nat.lt_succ_self _
  have hGetPar0 : getNode a0 parentId = getNode st.arena parentId :=
    getNode_append_lt _ _ _ hpar
  have hbound : d parentId < st.arena.length := ((hd parentId hpar).2.2)
  have hfree : ∀ v, v < a0.length →
      ArenaInvD a0 (fun i => if i = pageId then v else d i) := by
    intro v hv
    refine ArenaInvD_pushPage st.arena d page v hd (by rw [← hlen0]; exact hv)
      hsubpage ?_
    intro j hj
    rw [hparpage] at hj
    exact Option.noConfusion hj
  have hgap : ∀ v, d parentId < v →
      (fun i => if i = pageId then v else d i) parentId
        < (fun i => if i = pageId then v else d i) pageId := by
    intro v hv
    beta_reduce
    rw [if_neg hparne, if_pos rfl]
    exact hv
  cases hlk : odLookup (getNode a0 parentId).subPages page.name with
  | none =>
    rw [resolveConflict_none _ _ _ _ _ hlk]
    have hstep := ArenaInvD_dispatch_any parentId pageId page a0 st.pages st.hidden
      st.warns _ (hfree (d parentId + 1) (by omega)) hpagelt0 hparlt0
      (hgap _ (Nat.lt_succ_self _))
    refine ⟨hstep.1, ?_⟩
    rw [hstep.2, hlen0]
    exact Nat.le_succ _
  | some oldId =>
    have hmem : (page.name, oldId) ∈ (getNode st.arena parentId).subPages := by
      rw [← hGetPar0]
      exact odLookup_mem hlk
    obtain ⟨holdlt, holdgap⟩ := (hd parentId hpar).2.1 _ hmem
    have holdne : oldId ≠ pageId := Nat.ne_of_lt holdlt
    have hGetOld0 : getNode a0 oldId = getNode st.arena oldId :=
      getNode_append_lt _ _ _ holdlt
    have hsubs_old : ∀ kv ∈ (getNode a0 oldId).subPages,
        kv.2 < st.arena.length ∧ d oldId < d kv.2 := by
      intro kv hkv
      rw [hGetOld0] at hkv
      exact (hd oldId holdlt).2.1 kv hkv
    have hconf : ArenaInvD (modNode (reparentSubs a0 pageId
        (getNode a0 oldId).subPages) parentId
        (fun n => { n with subPages := odDel n.subPages page.name }))
        (fun i => if i = pageId then d oldId else d i) := by
      refine ArenaInvD_delSlot _ _ _ _ ?_
      refine ArenaInvD_reparent _ _ _ _ (hfree (d oldId) (by
        rw [hlen0]
        have := (hd oldId holdlt).2.2
        omega)) hpagelt0 ?_
      intro kv hkv
      obtain ⟨h1, h2⟩ := hsubs_old kv hkv
      rw [if_pos rfl, if_neg (Nat.ne_of_lt h1)]
      exact ⟨by rw [hlen0]; omega, h2⟩
    have hconflen : (modNode (reparentSubs a0 pageId
        (getNode a0 oldId).subPages) parentId
        (fun n => { n with subPages := odDel n.subPages page.name })).length
        = a0.length := by
      rw [length_modNode, reparentSubs_length]
    by_cases hv : (getNode a0 oldId).virtual = true
    · rw [resolveConflict_virtual _ _ _ _ _ _ hlk hv]
      have hstep := ArenaInvD_dispatch_any parentId pageId page _
        (listRemove st.pages oldId) st.hidden st.warns _ hconf
        (by rw [hconflen]; exact hpagelt0) (by rw [hconflen]; exact hparlt0)
        (hgap _ holdgap)
      refine ⟨hstep.1, ?_⟩
      rw [hstep.2, hconflen, hlen0]
      exact Nat.le_succ _
    · have hv2 : (getNode a0 oldId).virtual = false := by
        cases h : (getNode a0 oldId).virtual
        · rfl
        · exact absurd h hv
      by_cases hdl : page.inDefaultLang = true
      · rw [resolveConflict_defLang _ _ _ _ _ _ hlk hv2 hdl]
        have hstep := ArenaInvD_dispatch_any parentId pageId page _
          st.pages st.hidden st.warns _ hconf
          (by rw [hconflen]; exact hpagelt0) (by rw [hconflen]; exact hparlt0)
          (hgap _ holdgap)
        refine ⟨hstep.1, ?_⟩
        rw [hstep.2, hconflen, hlen0]
        exact Nat.le_succ _
      · have hdl2 : page.inDefaultLang = false := by
          cases h : page.inDefaultLang
          · rfl
          · exact absurd h hdl
        rw [resolveConflict_keep _ _ _ _ _ _ hlk hv2 hdl2]
        have hstep := ArenaInvD_dispatch_any parentId pageId page a0 st.pages
          st.hidden st.warns _ (hfree (d parentId + 1) (by omega)) hpagelt0 hparlt0
          (hgap _ (Nat.lt_succ_self _))
        refine ⟨hstep.1, ?_⟩
        rw [hstep.2, hlen0]
        exact Nat.le_succ _

/-- Unfolding of the scan step for a non-excluded directory entry, with
the slot-or-reuse choice abstracted into `usedArena`/`usedId`. -/
theorem scanList_dir_eq (s : Settings) (fuel parentId : Nat) (dname : String)
    (subs rest : List Entry) (st : ScanAcc) (hex : dname ∉ s.exclude)
    (usedArena : List Node) (usedId : Nat)
    (hused : (match odLookup (getNode (st.arena ++ [mkDirPage s parentId dname])
        parentId).subPages (mkDirPage s parentId dname).name with
      | some oldId => (st.arena ++ [mkDirPage s parentId dname], oldId)
      | none => (modNode (st.arena ++ [mkDirPage s parentId dname]) parentId
          (fun n => { n with subPages := odSet n.subPages (mkDirPage s parentId dname).name st.arena.length }), st.arena.length))
      = (usedArena, usedId)) :
    scanList s (fuel + 1) parentId (.dir dname subs :: rest) st
      = scanList s fuel parentId rest
          ⟨(scanList s fuel usedId subs ⟨usedArena, [], [], st.warns⟩).arena,
           (st.pages ++ [usedId])
             ++ (scanList s fuel usedId subs ⟨usedArena, [], [], st.warns⟩).pages,
           st.hidden ++ (scanList s fuel usedId subs ⟨usedArena, [], [], st.warns⟩).hidden,
           (scanList s fuel usedId subs ⟨usedArena, [], [], st.warns⟩).warns⟩ := by
  conv_lhs => rw [scanList]
  rw [if_neg hex]
  simp only [hused]

/-- Scanning a listing preserves the certificate and never shrinks the
arena. -/
theorem scanList_inv (s : Settings) (fuel : Nat) :
    ∀ (es : List Entry) (parentId : Nat) (st : ScanAcc),
    parentId < st.arena.length → ArenaInv st.arena →
    ArenaInv (scanList s fuel parentId es st).arena ∧
    st.arena.length ≤ (scanList s fuel parentId es st).arena.length := by
  induction fuel with
  | zero =>
    intro es parentId st hpar hinv
    cases es with
    | nil => exact ⟨hinv, Nat.le_refl _⟩
    | cons e rest => exact ⟨hinv, Nat.le_refl _⟩
  | succ fuel ih =>
    intro es parentId st hpar hinv
    cases es with
    | nil => exact ⟨hinv, Nat.le_refl _⟩
    | cons e rest =>
      cases e with
      | file fname info =>
        have hstep := processFile_inv s parentId fname info st hpar hinv
        have h2 := ih rest parentId (processFile s parentId fname info st)
          (Nat.lt_of_lt_of_le hpar hstep.2) hstep.1
        exact ⟨h2.1, Nat.le_trans hstep.2 h2.2⟩
      | dir dname subs =>
        by_cases hex : dname ∈ s.exclude
        · have he : scanList s (fuel + 1) parentId (.dir dname subs :: rest) st
              = scanList s fuel parentId rest st := by
            conv_lhs => rw [scanList]
            rw [if_pos hex]
          rw [he]
          exact ih rest parentId st hpar hinv
        · obtain ⟨d, hd⟩ := hinv
          set v := mkDirPage s parentId dname with hvdef
          set a0 := st.arena ++ [v] with ha0def
          have hlen0 : a0.length = st.arena.length + 1 := by
            rw [ha0def, List.length_append, List.length_singleton]
          have hsubv : v.subPages = [] := by
            rw [hvdef]
            rfl
          have hparv : v.parent = some parentId := by
            rw [hvdef]
            rfl
          have hd0 : ArenaInvD a0
              (fun i => if i = st.arena.length then d parentId + 1 else d i) := by
            refine ArenaInvD_pushPage st.arena d v (d parentId + 1) hd ?_ hsubv ?_
            · have := (hd parentId hpar).2.2
              omega
            · intro j hj
              rw [hparv] at hj
              cases hj
              exact ⟨hpar, Nat.lt_succ_self _⟩
          have hGetPar0 : getNode a0 parentId = getNode st.arena parentId :=
            getNode_append_lt _ _ _ hpar
          have htail : ∀ (usedArena : List Node) (usedId : Nat),
              scanList s (fuel + 1) parentId (.dir dname subs :: rest) st
                = scanList s fuel parentId rest
                    ⟨(scanList s fuel usedId subs
                        ⟨usedArena, [], [], st.warns⟩).arena,
                     (st.pages ++ [usedId]) ++ (scanList s fuel usedId subs
                        ⟨usedArena, [], [], st.warns⟩).pages,
                     st.hidden ++ (scanList s fuel usedId subs
                        ⟨usedArena, [], [], st.warns⟩).hidden,
                     (scanList s fuel usedId subs
                        ⟨usedArena, [], [], st.warns⟩).warns⟩ →
              ArenaInv usedArena → usedId < usedArena.length →
              st.arena.length ≤ usedArena.length →
              ArenaInv (scanList s (fuel + 1) parentId
                (.dir dname subs :: rest) st).arena ∧
              st.arena.length ≤ (scanList s (fuel + 1) parentId
                (.dir dname subs :: rest) st).arena.length := by
            intro usedArena usedId heq hinvU hltU hleU
            rw [heq]
            have hsub := ih subs usedId ⟨usedArena, [], [], st.warns⟩ hltU hinvU
            have hrest := ih rest parentId
              ⟨(scanList s fuel usedId subs ⟨usedArena, [], [], st.warns⟩).arena,
               (st.pages ++ [usedId]) ++ (scanList s fuel usedId subs
                  ⟨usedArena, [], [], st.warns⟩).pages,
               st.hidden ++ (scanList s fuel usedId subs
                  ⟨usedArena, [], [], st.warns⟩).hidden,
               (scanList s fuel usedId subs ⟨usedArena, [], [], st.warns⟩).warns⟩
              (Nat.lt_of_lt_of_le hpar (Nat.le_trans hleU hsub.2)) hsub.1
            exact ⟨hrest.1, Nat.le_trans (Nat.le_trans hleU hsub.2) hrest.2⟩
          cases hlk : odLookup (getNode a0 parentId).subPages v.name with
          | some oldId =>
            refine htail a0 oldId
              (scanList_dir_eq s fuel parentId dname subs rest st hex a0 oldId
                (by rw [show (st.arena ++ [mkDirPage s parentId dname]) = a0
                    from rfl, hlk]))
              ⟨_, hd0⟩ ?_ ?_
            · have hmem : (v.name, oldId) ∈ (getNode st.arena parentId).subPages := by
                rw [← hGetPar0]
                exact odLookup_mem hlk
              have := ((hd parentId hpar).2.1 _ hmem).1
              omega
            · rw [hlen0]
              exact Nat.le_succ _
          | none =>
            refine htail
              (modNode a0 parentId
                (fun n =>
                  { n with subPages := odSet n.subPages v.name st.arena.length }))
              st.arena.length
              (scanList_dir_eq s fuel parentId dname subs rest st hex _ _
                (by rw [show (st.arena ++ [mkDirPage s parentId dname]) = a0
                    from rfl, hlk]))
              ?_ ?_ ?_
            · refine ⟨_, ArenaInvD_setSlot _ _ _ _ _ hd0 ?_ ?_ ?_⟩
              · rw [hlen0]
                exact Nat.lt_succ_of_lt hpar
              · rw [hlen0]
                exact Nat.lt_succ_self _
              · rw [if_neg (Nat.ne_of_lt hpar), if_pos rfl]
                exact Nat.lt_succ_self _
            · rw [length_modNode, hlen0]
              exact Nat.lt_succ_self _
            · rw [length_modNode, hlen0]
              exact Nat.le_succ _

/-- The singleton root arena carries the trivial certificate. -/
theorem rootArena_inv (s : Settings) : ArenaInv [rootNode s] := by
  refine ⟨fun _ => 0, ?_⟩
  intro i hi
  rw [List.length_singleton] at hi
  interval_cases i
  refine ⟨?_, ?_, ?_⟩
  · intro j hj
    exact Option.noConfusion hj
  · intro kv hkv
    exact absurd hkv (List.not_mem_nil kv)
  · rw [List.length_singleton]
    exact Nat.zero_lt_one

/-- The full scan from `generate_context` yields a certified arena. -/
theorem generateContext_inv (s : Settings) (es : List Entry) :
    ArenaInv (generateContext s es).arena := by
  refine (scanList_inv s (forestSize (sortForest es)) (sortForest es) 0
    { arena := [rootNode s], pages := [], hidden := [], warns := 0 }
    ?_ (rootArena_inv s)).1
  rw [List.length_singleton]
  exact Nat.zero_lt_one

/-- On a certified arena the ancestor walk stabilizes: any fuel at least
the rank bound produces the same (finite) walk. -/
theorem ancestorsAux_stable (a : List Node) (d : Nat → Nat) (hd : ArenaInvD a d) :
    ∀ (n : Nat) (p : Option Nat), (∀ j, p = some j → j < a.length ∧ d j < n) →
    ∀ g, n ≤ g → ancestorsAux a g p = ancestorsAux a n p := by
  intro n
  induction n using Nat.strong_induction_on with
  | _ n ih =>
    intro p hp g hg
    cases p with
    | none => rw [ancestorsAux_none, ancestorsAux_none]
    | some j =>
      obtain ⟨hjl, hjd⟩ := hp j rfl
      obtain ⟨n2, rfl⟩ : ∃ n2, n = n2 + 1 := ⟨n - 1, by omega⟩
      obtain ⟨g2, rfl⟩ : ∃ g2, g = g2 + 1 := ⟨g - 1, by omega⟩
      show j :: ancestorsAux a g2 ((getNode a j).parent)
          = j :: ancestorsAux a n2 ((getNode a j).parent)
      have hcond : ∀ k, (getNode a j).parent = some k →
          k < a.length ∧ d k < n2 := by
        intro k hk
        obtain ⟨h1, h2⟩ := (hd j hjl).1 k hk
        exact ⟨h1, by omega⟩
      exact congrArg (j :: ·)
        (ih n2 (Nat.lt_succ_self n2) _ hcond g2 (by omega))

/-- C5: on every arena built by `generate_context`, the ancestor walk of
any node is finite (the embedding's fuel bound never binds: any fuel of
at least the arena size yields the same list, so the walk genuinely
reaches a parentless node), each invocation is a fresh function of the
current parent links, `level` equals the number of yielded ancestors,
and a parentless node — the synthetic root in particular — has depth
0. -/
theorem c5_depth_equals_ancestors (s : Settings) (es : List Entry) (i g : Nat)
    (hg : (generateContext s es).arena.length ≤ g) :
    ancestorsAux (generateContext s es).arena g
        ((getNode (generateContext s es).arena i).parent)
      = ancestors (generateContext s es).arena i ∧
    level (generateContext s es).arena i
      = (ancestors (generateContext s es).arena i).length ∧
    ((getNode (generateContext s es).arena i).parent = none →
      level (generateContext s es).arena i = 0) := by
  obtain ⟨d, hd⟩ := generateContext_inv s es
  refine ⟨?_, rfl, ?_⟩
  · cases hp : (getNode (generateContext s es).arena i).parent with
    | none =>
      rw [ancestors, hp, ancestorsAux_none, ancestorsAux_none]
    | some j =>
      have hi : i < (generateContext s es).arena.length := by
        by_contra hni
        have hdef : getNode (generateContext s es).arena i = defNode := by
          rw [getNode_eq_get?, List.get?_eq_none.mpr (Nat.le_of_not_lt hni)]
          rfl
        rw [hdef] at hp
        exact Option.noConfusion hp
      obtain ⟨hjl, hjd⟩ := (hd i hi).1 j hp
      have hcond : ∀ k, (some j : Option Nat) = some k →
          k < (generateContext s es).arena.length ∧
          d k < (generateContext s es).arena.length := by
        intro k hk
        cases hk
        exact ⟨hjl, (hd j hjl).2.2⟩
      rw [ancestors, hp]
      exact ancestorsAux_stable _ d hd _ (some j) hcond g hg
  · intro hnone
    rw [level, ancestors, hnone, ancestorsAux_none]
    rfl

/-- Witness: on the arena scanned from `foo/` with `bar.md` (4 nodes,
`bar` sitting two levels below the root), fuel 7 exceeds the arena size
and the walk from node 2 stabilizes; its depth equals its ancestor
count. -/
theorem c5_depth_equals_ancestors_witness :
    (generateContext enSettings
        [Entry.dir "foo" [Entry.file "bar.md" pubFile]]).arena.length ≤ 7 ∧
    (ancestorsAux (generateContext enSettings
          [Entry.dir "foo" [Entry.file "bar.md" pubFile]]).arena 7
        ((getNode (generateContext enSettings
          [Entry.dir "foo" [Entry.file "bar.md" pubFile]]).arena 2).parent)
      = ancestors (generateContext enSettings
          [Entry.dir "foo" [Entry.file "bar.md" pubFile]]).arena 2 ∧
    level (generateContext enSettings
          [Entry.dir "foo" [Entry.file "bar.md" pubFile]]).arena 2
      = (ancestors (generateContext enSettings
          [Entry.dir "foo" [Entry.file "bar.md" pubFile]]).arena 2).length ∧
    ((getNode (generateContext enSettings
          [Entry.dir "foo" [Entry.file "bar.md" pubFile]]).arena 2).parent = none →
      level (generateContext enSettings
          [Entry.dir "foo" [Entry.file "bar.md" pubFile]]).arena 2 = 0)) :=
  ⟨by decide, c5_depth_equals_ancestors enSettings
    [Entry.dir "foo" [Entry.file "bar.md" pubFile]] 2 7 (by decide)⟩

/-! ## C8: the diagnostic printer round-trips

A re-parser recovers the tree from the rendered text by reading the
connector positions: each line's depth is the count of leading 4-column
prefix chunks (`"│   "` or `"    "`) plus one for the connector chunk
(`"├── "` or `"└── "`); the root line has neither.  Reconstructing
nesting from the depth sequence recovers the parent/child adjacency and
the sibling order. -/

def unitBar : List Char := ['│', ' ', ' ', ' ']

def unitBlank : List Char := [' ', ' ', ' ', ' ']

def connTee : List Char := ['├', '─', '─', ' ']

def connCorner : List Char := ['└', '─', '─', ' ']

def isUnitChunk (a b c d : Char) : Bool :=
  ([a, b, c, d] = unitBar) || ([a, b, c, d] = unitBlank)

def isConnChunk (a b c d : Char) : Bool :=
  ([a, b, c, d] = connTee) || ([a, b, c, d] = connCorner)

/-- Strip the leading run of prefix chunks, counting them. -/
def dropUnits : List Char → Nat × List Char
  | a :: b :: c :: d :: rest =>
    if isUnitChunk a b c d then
      let nr := dropUnits rest
      (nr.1 + 1, nr.2)
    else (0, a :: b :: c :: d :: rest)
  | cs => (0, cs)

/-- Read one rendered line back into its depth and label text. -/
def parseLine (cs : List Char) : Nat × List Char :=
  match dropUnits cs with
  | (u, a :: b :: c :: d :: rest) =>
    if isConnChunk a b c d then (u + 1, rest) else (u, a :: b :: c :: d :: rest)
  | (u, r) => (u, r)

def splitLinesAux : List Char → List Char → List (List Char)
  | [], acc => [acc.reverse]
  | c :: rest, acc =>
    if c = '\n' then acc.reverse :: splitLinesAux rest []
    else splitLinesAux rest (c :: acc)

/-- Split a newline-terminated text into its lines. -/
def splitLines (cs : List Char) : List (List Char) :=
  (splitLinesAux cs []).dropLast

/-- Rebuild a sibling forest from the depth-annotated line sequence: a
run of lines at the current depth, each followed by its descendants at
greater depth, stopping at the first shallower line. -/
def buildForest : Nat → Nat → List (Nat × List Char) → List RTree × List (Nat × List Char)
  | 0, _, ls => ([], ls)
  | _ + 1, _, [] => ([], [])
  | fuel + 1, dep, (d1, l) :: rest =>
    if d1 = dep then
      let cr := buildForest fuel (dep + 1) rest
      let sr := buildForest fuel dep cr.2
      (RTree.node (String.mk l) cr.1 :: sr.1, sr.2)
    else ([], (d1, l) :: rest)

/-- Re-parse a rendered diagram into the tree it came from. -/
def parseAscii (rendered : String) : Option RTree :=
  let parsed := (splitLines rendered.toList).map parseLine
  match buildForest parsed.length 0 parsed with
  | ([t], []) => some t
  | _ => none

/-- A display label re-parses unambiguously when it contains no newline
and does not itself start with a prefix or connector chunk. -/
def goodLabel (l : String) : Bool :=
  (!l.toList.contains '\n') &&
  (match l.toList with
   | a :: b :: c :: d :: _ => !(isUnitChunk a b c d) && !(isConnChunk a b c d)
   | _ => true)

mutual
def goodTree : RTree → Bool
  | .node l cs => goodLabel l && goodForest cs

def goodForest : List RTree → Bool
  | [] => true
  | t :: ts => goodTree t && goodForest ts
end

mutual
/-- The rendered lines of a subtree, kept as a list of char lines (the
string the printer produces is their newline-joined flattening). -/
def rawLines : RTree → List String → String → List (List Char)
  | .node l cs, pre, lastPre =>
    ((String.join pre.dropLast).toList ++ lastPre.toList ++ l.toList)
      :: rawForest cs pre

def rawForest : List RTree → List String → List (List Char)
  | [], _ => []
  | [c], pre => rawLines c (pre ++ ["    "]) "└── "
  | c :: c2 :: cs, pre =>
    rawLines c (pre ++ ["│   "]) "├── " ++ rawForest (c2 :: cs) pre
end

def flatChars (ls : List (List Char)) : List Char :=
  ls.foldr (fun l acc => l ++ '\n' :: acc) []

mutual
/-- The depth-annotated preorder listing of a subtree. -/
def flattenTree (dep : Nat) : RTree → List (Nat × List Char)
  | .node l cs => (dep, l.toList) :: flattenForest (dep + 1) cs

def flattenForest (dep : Nat) : List RTree → List (Nat × List Char)
  | [] => []
  | t :: ts => flattenTree dep t ++ flattenForest dep ts
end

mutual
/-- A structural size measure used to recurse over forests. -/
def rtSize : RTree → Nat
  | .node _ cs => rfSize cs + 1

def rfSize : List RTree → Nat
  | [] => 0
  | t :: ts => rtSize t + rfSize ts + 1
end

/-! ### The rendered string is the newline-joined flattening of the
rendered lines -/

theorem join_toList_aux (ls : List String) (acc : String) :
    (List.foldl (fun r s => r ++ s) acc ls).toList
      = acc.toList ++ (ls.map String.toList).foldr (· ++ ·) [] := by
  induction ls generalizing acc with
  | nil => simp
  | cons l rest ih =>
    rw [List.foldl_cons, ih, List.map_cons, List.foldr_cons]
    show (acc ++ l).toList ++ _ = _
    rw [show (acc ++ l).toList = acc.toList ++ l.toList from rfl, List.append_assoc]

theorem join_toList (ls : List String) :
    (String.join ls).toList = (ls.map String.toList).foldr (· ++ ·) [] :=
  join_toList_aux ls ""

theorem flatChars_cons (l : List Char) (ls : List (List Char)) :
    flatChars (l :: ls) = l ++ '\n' :: flatChars ls := rfl

theorem flatChars_append (xs ys : List (List Char)) :
    flatChars (xs ++ ys) = flatChars xs ++ flatChars ys := by
  induction xs with
  | nil => rfl
  | cons x xs ih =>
    rw [List.cons_append, flatChars_cons, flatChars_cons, ih, List.append_assoc]
    rfl

theorem toList_append (s t : String) : (s ++ t).toList = s.toList ++ t.toList := rfl

mutual
theorem asciiTree_toList : ∀ (t : RTree) (pre : List String) (lastPre : String),
    (asciiTree t pre lastPre).toList = flatChars (rawLines t pre lastPre)
  | .node l cs, pre, lastPre => by
    rw [asciiTree, rawLines, flatChars_cons]
    simp only [toList_append, List.append_assoc]
    rw [asciiChildren_toList cs pre]
    simp [List.append_assoc]

theorem asciiChildren_toList : ∀ (cs : List RTree) (pre : List String),
    (asciiChildren cs pre).toList = flatChars (rawForest cs pre)
  | [], _ => rfl
  | [c], pre => by
    rw [asciiChildren, rawForest]
    exact asciiTree_toList c (pre ++ ["    "]) "└── "
  | c :: c2 :: cs, pre => by
    rw [asciiChildren, rawForest]
    rw [toList_append, asciiTree_toList c (pre ++ ["│   "]) "├── ",
      asciiChildren_toList (c2 :: cs) pre, flatChars_append]
end

/-! ### Splitting the flattened lines recovers them -/

theorem splitLinesAux_line (l : List Char) (rest acc : List Char) :
    '\n' ∉ l →
    splitLinesAux (l ++ '\n' :: rest) acc
      = (acc.reverse ++ l) :: splitLinesAux rest [] := by
  induction l generalizing acc with
  | nil =>
    intro hl
    simp [splitLinesAux]
  | cons c l2 ih =>
    intro hl
    have hc : c ≠ '\n' := fun he => hl (he ▸ List.mem_cons_self _ _)
    rw [List.cons_append, splitLinesAux, if_neg hc,
      ih (c :: acc) (fun hm => hl (List.mem_cons_of_mem _ hm))]
    simp

theorem splitLines_flatChars (ls : List (List Char))
    (h : ∀ l ∈ ls, '\n' ∉ l) : splitLines (flatChars ls) = ls := by
  have haux : splitLinesAux (flatChars ls) [] = ls ++ [[]] := by
    induction ls with
    | nil => rfl
    | cons l ls2 ih =>
      rw [flatChars_cons, splitLinesAux_line l _ _ (h l (List.mem_cons_self _ _)),
        ih (fun l2 hl2 => h l2 (List.mem_cons_of_mem _ hl2))]
      simp
  rw [splitLines, haux, List.dropLast_concat]

/-! ### Reading one line back -/

theorem dropUnits_units (us : List String) (r : List Char)
    (hus : ∀ u ∈ us, u = "│   " ∨ u = "    ")
    (hr : ∀ a b c d rest, r = a :: b :: c :: d :: rest → isUnitChunk a b c d = false) :
    dropUnits ((String.join us).toList ++ r) = (us.length, r) := by
  induction us with
  | nil =>
    show dropUnits r = (0, r)
    match r, hr with
    | [], _ => rfl
    | [a], _ => rfl
    | [a, b], _ => rfl
    | [a, b, c], _ => rfl
    | a :: b :: c :: d :: rest, hr => simp [dropUnits, hr a b c d rest rfl]
  | cons u us2 ih =>
    have hjoin : (String.join (u :: us2)).toList
        = u.toList ++ (String.join us2).toList := by
      rw [join_toList, List.map_cons, List.foldr_cons, ← join_toList]
    have ih2 := ih (fun u' hu' => hus u' (List.mem_cons_of_mem _ hu'))
    rcases hus u (List.mem_cons_self _ _) with hu | hu <;> subst hu <;>
      · rw [hjoin, List.append_assoc]
        show dropUnits (_ :: _ :: _ :: _ :: ((String.join us2).toList ++ r)) = _
        rw [dropUnits]
        rw [if_pos (by decide)]
        rw [ih2]
        rfl

theorem parseLine_conn (us : List String) (conn : String) (label : List Char)
    (hus : ∀ u ∈ us, u = "│   " ∨ u = "    ")
    (hconn : conn = "├── " ∨ conn = "└── ") :
    parseLine ((String.join us).toList ++ (conn.toList ++ label))
      = (us.length + 1, label) := by
  rcases hconn with hc | hc <;> subst hc
  · have hdrop := dropUnits_units us ('├' :: '─' :: '─' :: ' ' :: label) hus (by
      intro a b c d rest h
      cases h
      decide)
    show parseLine ((String.join us).toList ++ ('├' :: '─' :: '─' :: ' ' :: label))
        = (us.length + 1, label)
    rw [parseLine, hdrop]
    show (if isConnChunk '├' '─' '─' ' ' = true then (us.length + 1, label)
          else (us.length, '├' :: '─' :: '─' :: ' ' :: label)) = (us.length + 1, label)
    rw [if_pos (by decide)]
  · have hdrop := dropUnits_units us ('└' :: '─' :: '─' :: ' ' :: label) hus (by
      intro a b c d rest h
      cases h
      decide)
    show parseLine ((String.join us).toList ++ ('└' :: '─' :: '─' :: ' ' :: label))
        = (us.length + 1, label)
    rw [parseLine, hdrop]
    show (if isConnChunk '└' '─' '─' ' ' = true then (us.length + 1, label)
          else (us.length, '└' :: '─' :: '─' :: ' ' :: label)) = (us.length + 1, label)
    rw [if_pos (by decide)]

theorem parseLine_plain (label : List Char)
    (hlabel : ∀ a b c d rest, label = a :: b :: c :: d :: rest →
        isUnitChunk a b c d = false ∧ isConnChunk a b c d = false) :
    parseLine label = (0, label) := by
  have hdrop : dropUnits label = (0, label) :=
    dropUnits_units [] label (fun u hu => absurd hu (List.not_mem_nil u))
      (fun a b c d rest h => (hlabel a b c d rest h).1)
  rw [parseLine, hdrop]
  clear hdrop
  match label, hlabel with
  | [], _ => rfl
  | [a], _ => rfl
  | [a, b], _ => rfl
  | [a, b, c], _ => rfl
  | a :: b :: c :: d :: rest, hlabel =>
    show (if isConnChunk a b c d = true then (0 + 1, rest)
          else (0, a :: b :: c :: d :: rest)) = (0, a :: b :: c :: d :: rest)
    simp [(hlabel a b c d rest rfl).2]

theorem goodLabel_chunks (l : String) (h : goodLabel l = true) :
    '\n' ∉ l.toList ∧
    ∀ a b c d rest, l.toList = a :: b :: c :: d :: rest →
      isUnitChunk a b c d = false ∧ isConnChunk a b c d = false := by
  rw [goodLabel, Bool.and_eq_true] at h
  constructor
  · intro hm
    have h1 := h.1
    have h2 : l.toList.contains '\n' = true := List.elem_eq_true_of_mem hm
    rw [h2] at h1
    exact Bool.false_ne_true ((Bool.not_true).symm.trans h1)
  · intro a b c d rest hshape
    have h2 := h.2
    rw [hshape] at h2
    rw [Bool.and_eq_true] at h2
    constructor
    · rw [← Bool.not_not (isUnitChunk a b c d), h2.1]
      rfl
    · rw [← Bool.not_not (isConnChunk a b c d), h2.2]
      rfl

theorem no_newline_join (us : List String)
    (hus : ∀ u ∈ us, u = "│   " ∨ u = "    ") :
    '\n' ∉ (String.join us).toList := by
  induction us with
  | nil => exact List.not_mem_nil _
  | cons u us2 ih =>
    have hjoin : (String.join (u :: us2)).toList
        = u.toList ++ (String.join us2).toList := by
      rw [join_toList, List.map_cons, List.foldr_cons, ← join_toList]
    rw [hjoin]
    intro hm
    rcases List.mem_append.mp hm with h1 | h1
    · rcases hus u (List.mem_cons_self _ _) with hu | hu <;> rw [hu] at h1 <;>
        exact absurd h1 (by decide)
    · exact ih (fun u' hu' => hus u' (List.mem_cons_of_mem _ hu')) h1

mutual
/-- Parsing each rendered line of a well-labelled subtree yields its
depth-annotated preorder listing, and no rendered line contains a
newline. -/
theorem rawLines_spec : ∀ (t : RTree) (pre : List String) (lastPre : String),
    goodTree t = true →
    (∀ u ∈ pre, u = "│   " ∨ u = "    ") →
    ((pre = [] ∧ lastPre = "") ∨
      (pre ≠ [] ∧ (lastPre = "├── " ∨ lastPre = "└── "))) →
    (rawLines t pre lastPre).map parseLine = flattenTree pre.length t ∧
    ∀ l ∈ rawLines t pre lastPre, '\n' ∉ l
  | .node lab cs, pre, lastPre => by
    intro hgood hpre hlast
    rw [goodTree, Bool.and_eq_true] at hgood
    obtain ⟨hlab, hcs⟩ := hgood
    obtain ⟨hnl, hchunks⟩ := goodLabel_chunks lab hlab
    have hforest := rawForest_spec cs pre hcs hpre
    rw [rawLines, flattenTree]
    constructor
    · rw [List.map_cons, hforest.1]
      congr 1
      rcases hlast with ⟨hpe, hle⟩ | ⟨hpne, hconn⟩
      · subst hpe
        subst hle
        show parseLine lab.toList = (0, lab.toList)
        exact parseLine_plain lab.toList hchunks
      · rw [List.append_assoc]
        rw [parseLine_conn pre.dropLast lastPre lab.toList
          (fun u hu => hpre u (List.mem_of_mem_dropLast hu)) hconn]
        have hlen : pre.dropLast.length + 1 = pre.length := by
          rw [List.length_dropLast]
          have := List.length_pos.mpr hpne
          omega
        rw [hlen]
    · intro l hl
      rcases List.mem_cons.mp hl with h1 | h1
      · rw [h1]
        intro hm
        rcases List.mem_append.mp hm with h2 | h2
        · rcases List.mem_append.mp h2 with h3 | h3
          · exact no_newline_join pre.dropLast
              (fun u hu => hpre u (List.mem_of_mem_dropLast hu)) h3
          · rcases hlast with ⟨_, hle⟩ | ⟨_, hconn⟩
            · rw [hle] at h3
              exact absurd h3 (by decide)
            · rcases hconn with hc | hc <;> rw [hc] at h3 <;>
                exact absurd h3 (by decide)
        · exact hnl h2
      · exact hforest.2 l h1

theorem rawForest_spec : ∀ (cs : List RTree) (pre : List String),
    goodForest cs = true →
    (∀ u ∈ pre, u = "│   " ∨ u = "    ") →
    (rawForest cs pre).map parseLine = flattenForest (pre.length + 1) cs ∧
    ∀ l ∈ rawForest cs pre, '\n' ∉ l
  | [], pre => by
    intro _ _
    exact ⟨rfl, fun l hl => absurd hl (List.not_mem_nil l)⟩
  | [c], pre => by
    intro hgood hpre
    rw [goodForest, Bool.and_eq_true] at hgood
    have hpre2 : ∀ u ∈ pre ++ ["    "], u = "│   " ∨ u = "    " := by
      intro u hu
      rcases List.mem_append.mp hu with h1 | h1
      · exact hpre u h1
      · exact Or.inr (List.mem_singleton.mp h1)
    have h1 := rawLines_spec c (pre ++ ["    "]) "└── " hgood.1 hpre2
      (Or.inr ⟨by simp, Or.inr rfl⟩)
    rw [rawForest]
    refine ⟨?_, h1.2⟩
    rw [h1.1, flattenForest, flattenForest, List.append_nil, List.length_append]
    rfl
  | c :: c2 :: cs2, pre => by
    intro hgood hpre
    rw [goodForest, Bool.and_eq_true] at hgood
    have hpre2 : ∀ u ∈ pre ++ ["│   "], u = "│   " ∨ u = "    " := by
      intro u hu
      rcases List.mem_append.mp hu with h1 | h1
      · exact hpre u h1
      · exact Or.inl (List.mem_singleton.mp h1)
    have h1 := rawLines_spec c (pre ++ ["│   "]) "├── " hgood.1 hpre2
      (Or.inr ⟨by simp, Or.inl rfl⟩)
    have h2 := rawForest_spec (c2 :: cs2) pre hgood.2 hpre
    rw [rawForest]
    constructor
    · rw [List.map_append, h1.1, h2.1, flattenForest, List.length_append]
      rfl
    · intro l hl
      rcases List.mem_append.mp hl with hh | hh
      · exact h1.2 l hh
      · exact h2.2 l hh
end

/-! ### Rebuilding the forest from the depth sequence -/

theorem buildForest_flatten (N : Nat) :
    ∀ (ts : List RTree), rfSize ts ≤ N →
    ∀ (dep : Nat) (rest : List (Nat × List Char)) (fuel : Nat),
      (flattenForest dep ts ++ rest).length ≤ fuel →
      (rest = [] ∨ ∃ d1 l r2, rest = (d1, l) :: r2 ∧ d1 < dep) →
      buildForest fuel dep (flattenForest dep ts ++ rest) = (ts, rest) := by
  induction N using Nat.strong_induction_on with
  | _ N ih =>
    intro ts hsize dep rest fuel hfuel hrest
    cases ts with
    | nil =>
      show buildForest fuel dep rest = ([], rest)
      cases fuel with
      | zero => rfl
      | succ f =>
        rcases hrest with hre | ⟨d1, l, r2, hre, hd1⟩
        · rw [hre]
          rfl
        · rw [hre, buildForest, if_neg (by omega)]
    | cons t ts2 =>
      cases t with
      | node lab cs =>
        have hsh : flattenForest dep (RTree.node lab cs :: ts2) ++ rest
            = (dep, lab.toList)
              :: (flattenForest (dep + 1) cs
                  ++ (flattenForest dep ts2 ++ rest)) := by
          show flattenTree dep (RTree.node lab cs)
              ++ flattenForest dep ts2 ++ rest = _
          rw [flattenTree, List.cons_append, List.cons_append, List.append_assoc]
        rw [hsh]
        rw [hsh] at hfuel
        have hsz : rfSize (RTree.node lab cs :: ts2)
            = rfSize cs + 1 + rfSize ts2 + 1 := rfl
        cases fuel with
        | zero => exact absurd hfuel (by simp)
        | succ f =>
          have hflen : (flattenForest (dep + 1) cs
              ++ (flattenForest dep ts2 ++ rest)).length ≤ f := by
            rw [List.length_cons] at hfuel
            omega
          have hRrest : (flattenForest dep ts2 ++ rest) = [] ∨
              ∃ d1 l r2, (flattenForest dep ts2 ++ rest) = (d1, l) :: r2
                ∧ d1 < dep + 1 := by
            cases ts2 with
            | nil =>
              rcases hrest with hre | ⟨d1, l, r2, hre, hd1⟩
              · exact Or.inl (by rw [hre]; rfl)
              · exact Or.inr ⟨d1, l, r2, by rw [hre]; rfl, by omega⟩
            | cons t2 ts3 =>
              cases t2 with
              | node lab2 cs2 =>
                exact Or.inr ⟨dep, lab2.toList,
                  flattenForest (dep + 1) cs2
                    ++ (flattenForest dep ts3 ++ rest),
                  by rw [flattenForest, flattenTree, List.cons_append,
                    List.cons_append, List.append_assoc], by omega⟩
          have hcr := ih (rfSize cs) (by omega) cs le_rfl (dep + 1)
            (flattenForest dep ts2 ++ rest) f hflen hRrest
          have hslen : (flattenForest dep ts2 ++ rest).length ≤ f := by
            rw [List.length_append] at hflen ⊢
            rw [List.length_append] at hflen
            omega
          have hsib := ih (rfSize ts2) (by omega) ts2 le_rfl dep rest f
            hslen hrest
          rw [buildForest, if_pos rfl, hcr]
          show (RTree.node (String.mk lab.toList) cs
              :: (buildForest f dep (flattenForest dep ts2 ++ rest)).1,
            (buildForest f dep (flattenForest dep ts2 ++ rest)).2)
            = (RTree.node lab cs :: ts2, rest)
          rw [hsib]
          rfl

/-- C8: rendering a tree with the diagnostic printer (`ascii_tree`, the
last child marked with the corner connector `└── `, all earlier children
with the tee connector `├── `, children in child-mapping iteration
order) and then re-parsing the connector positions of the rendered text
recovers exactly the source tree — its parent/child adjacency and its
sibling ordering — for every tree whose labels are newline-free and do
not themselves start with a prefix or connector chunk. -/
theorem c8_ascii_tree_roundtrip (t : RTree) (hgood : goodTree t = true) :
    parseAscii (asciiTree t [] "") = some t := by
  have hlines := rawLines_spec t [] "" hgood
    (fun u hu => absurd hu (List.not_mem_nil u)) (Or.inl ⟨rfl, rfl⟩)
  have hsplit : splitLines ((asciiTree t [] "").toList) = rawLines t [] "" := by
    rw [asciiTree_toList, splitLines_flatChars _ hlines.2]
  have hparsed : (splitLines ((asciiTree t [] "").toList)).map parseLine
      = flattenTree 0 t := by
    rw [hsplit, hlines.1]
    rfl
  have hff : flattenForest 0 [t] ++ ([] : List (Nat × List Char))
      = flattenTree 0 t := by
    rw [flattenForest, flattenForest, List.append_nil, List.append_nil]
  have hbf := buildForest_flatten (rfSize [t]) [t] le_rfl 0 []
    (flattenTree 0 t).length (by rw [hff]) (Or.inl rfl)
  rw [hff] at hbf
  simp only [parseAscii, hparsed, hbf]

/-- Witness for C8: a concrete three-level tree with two sibling pairs
renders and re-parses back to itself. -/
theorem c8_ascii_tree_roundtrip_witness :
    goodTree (RTree.node "a" [RTree.node "b" [RTree.node "d" [],
        RTree.node "e" []], RTree.node "c" []]) = true ∧
    parseAscii (asciiTree (RTree.node "a" [RTree.node "b" [RTree.node "d" [],
        RTree.node "e" []], RTree.node "c" []]) [] "")
      = some (RTree.node "a" [RTree.node "b" [RTree.node "d" [],
        RTree.node "e" []], RTree.node "c" []]) :=
  ⟨by decide, c8_ascii_tree_roundtrip _ (by decide)⟩

end Hierarchy
